import Mathlib

/-!
Verification development for the `disk_analyzer` repository
(`src/disk_analyzer/da.py`).

The Python program is shallowly embedded: paths are lists of name
segments, a filesystem snapshot is a finite tree of entries carrying the
outcomes of the `stat`-family system calls the program performs on them,
and the stateful traversal loops become explicit folds over the
enumeration order produced by `os.walk`.  Machine integers are `Nat`
(Python integers are unbounded, and every size in the program is a
non-negative multiple of 512).  A system call that can fail returns
`Option`; an exception that can escape becomes `Except`.

Floating-point arithmetic in `format_size` is modelled by exact rational
arithmetic: for inputs below 2 to the 53rd power the quotient by a power
of 1024 is exact in binary floating point, and CPython `round` rounds
half to even, which `roundHalfEven` reproduces on rationals.
-/

namespace DiskAnalyzer

/-! ## Paths and the size index

A path is the list of its name segments; the scan root is some prefix of
every path the walk produces.  `SizeIndex` models the Python dict
`sizes : Dict[str, int]` as an association list with insertion-order
semantics; `getIdx`/`setIdx`/`addIdx` model lookup, assignment and the
guarded `sizes[k] += v` the source performs.  -/

abbrev Path := List String

abbrev SizeIndex := List (Path × Nat)

def getIdx : SizeIndex → Path → Option Nat
  | [], _ => none
  | (k, v) :: rest, p => if k = p then some v else getIdx rest p

def setIdx : SizeIndex → Path → Nat → SizeIndex
  | [], p, v => [(p, v)]
  | (k, w) :: rest, p, v =>
    if k = p then (k, v) :: rest else (k, w) :: setIdx rest p v

def addIdx : SizeIndex → Path → Nat → SizeIndex
  | [], _, _ => []
  | (k, w) :: rest, p, v =>
    if k = p then (k, w + v) :: rest else (k, w) :: addIdx rest p v

/-- Membership test `k in sizes` of the source. -/
def memIdx (m : SizeIndex) (p : Path) : Bool :=
  (getIdx m p).isSome

/-- Model of `dict.update`: assign every pair of `res` in order. -/
def updIdx (m : SizeIndex) (res : List (Path × Nat)) : SizeIndex :=
  res.foldl (fun s kv => setIdx s kv.1 kv.2) m

/-! ## Filesystem snapshot

`StatInfo` records the fields of a `stat` result the program reads.
`Info` records, for one filesystem entry, the outcome of each system
call the program can make on its path: `isLink` is what
`os.path.islink` returns, `ex` is what `os.path.exists` returns, `lst`
and `st` are the results of `os.lstat` / `os.stat` (`none` models a
raised `OSError`).  `ex` is kept as its own field because the spec's
`AccessError` explicitly covers entries that vanish between the
existence pre-check and the later probe (a mid-scan race), so the two
call sites may observe different outcomes.

An `Entry.dir` with `isLink = true` models a symlink to a directory:
`os.walk` lists it in `dirnames` but descends only when
`followlinks=True`.  An `Entry.file` is anything `os.walk` lists in
`filenames` (regular files, symlinks to files, broken symlinks). -/

structure StatInfo where
  dev : Nat
  ino : Nat
  blocks : Nat
deriving DecidableEq, Repr

structure Info where
  isLink : Bool
  ex : Bool
  lst : Option StatInfo
  st : Option StatInfo
deriving DecidableEq, Repr

mutual
inductive Entry where
  | file (name : String) (i : Info)
  | dir (name : String) (i : Info) (children : EntryList)
inductive EntryList where
  | nil
  | cons (e : Entry) (rest : EntryList)
end

def Entry.name : Entry → String
  | .file n _ => n
  | .dir n _ _ => n

def Entry.info : Entry → Info
  | .file _ i => i
  | .dir _ i _ => i

/-! ## Pattern matching

`compile_pattern` (lines 167-185) produces either a compiled regular
expression or the glob string itself; `Pat` is that tagged union, a
compiled regex being modelled by its `search` function (the only
operation the program applies to it).  `fnmatchL` models POSIX
`fnmatch.fnmatch` (full match; `os.path.normcase` is the identity):
star matches any run of characters including separators, `?` one
character, `[...]` a character class with `!` negation and ranges, and
an unclosed `[` is a literal bracket, following `fnmatch.translate`.
`match_pattern` is the source function of lines 187-210. -/

def findClose : List Char → Option Nat
  | [] => none
  | c :: rest => if c = ']' then some 0 else (findClose rest).map (· + 1)

/-- Number of leading class characters that `fnmatch.translate` skips
before scanning for the closing bracket: a leading `!` and a `]`
directly after it belong to the class body. -/
def classSkip (ps : List Char) : Nat :=
  match ps with
  | '!' :: rest =>
    match rest with
    | ']' :: _ => 2
    | _ => 1
  | ']' :: _ => 1
  | _ => 0

def classSplit (ps : List Char) : Option (List Char × List Char) :=
  let j := classSkip ps
  match findClose (ps.drop j) with
  | none => none
  | some k => some (ps.take (j + k), ps.drop (j + k + 1))

theorem classSplit_rest_length {ps b r : List Char}
    (h : classSplit ps = some (b, r)) : r.length < ps.length + 1 := by
  unfold classSplit at h
  cases hf : findClose (ps.drop (classSkip ps)) with
  | none => simp [hf] at h
  | some k =>
    simp [hf] at h
    obtain ⟨hb, hr⟩ := h
    subst hr
    simp [List.length_drop]
    omega

def classMatchPos : List Char → Char → Bool
  | a :: '-' :: b :: rest, c =>
    (decide (a ≤ c) && decide (c ≤ b)) || classMatchPos rest c
  | a :: rest, c => (a == c) || classMatchPos rest c
  | [], _ => false

def classMatch (body : List Char) (c : Char) : Bool :=
  match body with
  | '!' :: rest => !classMatchPos rest c
  | _ => classMatchPos body c

def fnmatchL : List Char → List Char → Bool
  | [], [] => true
  | [], _ :: _ => false
  | '*' :: ps, [] => fnmatchL ps []
  | '*' :: ps, c :: cs => fnmatchL ps (c :: cs) || fnmatchL ('*' :: ps) cs
  | '?' :: _, [] => false
  | '?' :: ps, _ :: cs => fnmatchL ps cs
  | '[' :: _, [] => false
  | '[' :: ps, c :: cs =>
    (match hcs : classSplit ps with
     | none => ('[' == c) && fnmatchL ps cs
     | some (body, rest) => classMatch body c && fnmatchL rest cs)
  | p :: ps, c :: cs => (p == c) && fnmatchL ps cs
  | _ :: _, [] => false
termination_by p s => (p.length, s.length)
decreasing_by
  all_goals simp_wf
  all_goals try exact Prod.Lex.right _ (by omega)
  all_goals apply Prod.Lex.left
  all_goals try omega
  all_goals exact Nat.lt_of_lt_of_le (classSplit_rest_length hcs) (by omega)

/-- Model of `fnmatch.fnmatch(name, pattern)`. -/
def fnmatch (nm pat : String) : Bool := fnmatchL pat.data nm.data

inductive Pat where
  | glob (pat : String)
  | regex (search : String → Bool)

/-- Model of `pattern.startswith('/')`: the first character is the
separator. -/
def startsWithSlash (p : String) : Bool :=
  match p.data with
  | [] => false
  | c :: _ => c == '/'

/-- Source `match_pattern` (lines 187-210): a compiled regex matches via
`search`; a glob starting with a separator is matched against the whole
path; otherwise it is tried against the whole path or with a
directory-crossing star prefix. -/
def match_pattern (path : String) (pattern : Pat) (is_absolute : Bool) : Bool :=
  match pattern with
  | .regex search => search path
  | .glob p =>
    if startsWithSlash p then fnmatch path p
    else if is_absolute then fnmatch path ("*/" ++ p)
    else fnmatch path p || fnmatch path ("*/" ++ p)

/-! ## Traversal helpers shared by both aggregation strategies -/

/-- The `filenames` component of an `os.walk` triple: every child that
is not a directory, in `scandir` order. -/
def filesOf : EntryList → List (String × Info)
  | .nil => []
  | .cons (.file n i) rest => (n, i) :: filesOf rest
  | .cons (.dir _ _ _) rest => filesOf rest

/-- Source depth test `current_depth > max_depth` guarded by
`max_depth is not None`; `current_depth` is
`dirpath[len(root):].count(os.sep)`, which for a path below the root is
the number of extra segments. -/
def overDepth (maxDepth : Option Nat) (depth : Nat) : Bool :=
  match maxDepth with
  | none => false
  | some d => depth > d

/-- Model of `os.path.relpath(dirpath, root)` for a path at or below the
root: `"."` at the root, otherwise the extra segments joined by the
separator. -/
def relPath (root p : Path) : String :=
  match p.drop root.length with
  | [] => "."
  | seg => String.intercalate ("/") seg

/-- The whitelist loop of the source: `is_whitelisted` is true when any
pattern matches the root-relative path (an empty pattern list never
matches, exactly like the `if whitelist_patterns:` guard). -/
def matchesAny (patterns : List Pat) (rel : String) : Bool :=
  patterns.any (fun pattern => match_pattern rel pattern false)

/-- One file probe of the walk (lines 592-595 and 522-524): a symlink
not being followed is sized by `os.lstat`, anything else by `os.stat`,
both as `st_blocks * 512`; `none` models a raised `OSError`. -/
def fileSize (follow : Bool) (i : Info) : Option Nat :=
  if i.isLink && !follow then i.lst.map (fun s => s.blocks * 512)
  else i.st.map (fun s => s.blocks * 512)

/-- A yielded `os.walk` triple restricted to the parts the sequential
loop reads: the directory path and its `filenames` with their stat
outcomes. -/
abbrev SeqItem := Path × List (String × Info)

/-! ## Sequential strategy (lines 566-614)

`walkRev` enumerates the triples of `os.walk(root, topdown=False,
followlinks=follow_symlinks)`: children before parents, a symlinked
directory descended only when `followlinks` is set, the root yielded
last and yielded even when it is itself a link.  `seqStep` is one
iteration of the loop body; `walkSeq` is the whole branch, starting
from the pre-initialised `sizes = \x7broot: 0\x7d`. -/

mutual
def walkEntryRev (follow : Bool) (path : Path) : Entry → List SeqItem
  | .file _ _ => []
  | .dir n i cs =>
    if !i.isLink || follow then
      walkListRev follow (path ++ [n]) cs ++ [(path ++ [n], filesOf cs)]
    else []
def walkListRev (follow : Bool) (path : Path) : EntryList → List SeqItem
  | .nil => []
  | .cons e rest => walkEntryRev follow path e ++ walkListRev follow path rest
end

def walkRev (follow : Bool) (root : Path) (e : Entry) : List SeqItem :=
  match e with
  | .file _ _ => []
  | .dir _ _ cs => walkListRev follow root cs ++ [(root, filesOf cs)]

/-- Inner loop over `filenames` (lines 586-605), threading the `sizes`
dict and the running `dir_size`.  The recording condition
`max_depth is None or current_depth <= max_depth or is_whitelisted`
does not depend on the file, so it is passed in as `record`. -/
def seqFileStep (follow : Bool) (record : Bool) (dirpath : Path)
    (acc : SizeIndex × Nat) (f : String × Info) : SizeIndex × Nat :=
  match fileSize follow f.2 with
  | none => acc
  | some sz =>
    ((if record then setIdx acc.1 (dirpath ++ [f.1]) sz else acc.1), acc.2 + sz)

def seqStep (root : Path) (maxDepth : Option Nat) (follow : Bool) (wl : List Pat)
    (sizes : SizeIndex) (item : SeqItem) : SizeIndex :=
  let dirpath := item.1
  let depth := dirpath.length - root.length
  let isWl := matchesAny wl (relPath root dirpath)
  if !isWl && overDepth maxDepth depth then sizes
  else
    let record := (match maxDepth with
      | none => true
      | some d => decide (depth ≤ d)) || isWl
    let st := item.2.foldl (seqFileStep follow record dirpath) (sizes, 0)
    let sizes2 := setIdx st.1 dirpath st.2
    if dirpath ≠ root then
      (if memIdx sizes2 dirpath.dropLast then addIdx sizes2 dirpath.dropLast st.2
       else sizes2)
    else sizes2

def walkSeq (tree : Entry) (root : Path) (maxDepth : Option Nat) (follow : Bool)
    (wl : List Pat) : SizeIndex :=
  (walkRev follow root tree).foldl (seqStep root maxDepth follow wl) [(root, 0)]

/-- The skip condition shared by the sequential loop (line 579) and the
first-pass pruning (line 497): beyond `max_depth` and not
whitelisted. -/
def skipB (root : Path) (maxDepth : Option Nat) (wl : List Pat) (dirpath : Path) : Bool :=
  !(matchesAny wl (relPath root dirpath))
    && overDepth maxDepth (dirpath.length - root.length)

/-- The value `dir_size` holds after the file loop of one directory:
the sizes of the files whose probes succeed, failures contributing
zero. -/
def okFileSum (follow : Bool) : List (String × Info) → Nat
  | [] => 0
  | f :: fs =>
    (match fileSize follow f.2 with
     | none => 0
     | some sz => sz) + okFileSum follow fs

/-- Every key the sequential loop can assign while processing the given
items: each directory path and each of its file paths. -/
def seqKeys (L : List SeqItem) : List Path :=
  L.flatMap (fun it => it.1 :: it.2.map (fun f => it.1 ++ [f.1]))

/-- Well-formedness of an enumeration: no later item's parent-add
target (`os.path.dirname` of its path) collides with an earlier item's
keys.  In a bottom-up walk of a real tree a parent is always yielded
after its children, so this holds; it is decided by `decide` at
concrete snapshots. -/
def noLaterParentHits (root : Path) : List SeqItem → Bool
  | [] => true
  | it :: rest =>
    rest.all (fun jt => decide (jt.1 = root)
      || (decide (jt.1.dropLast ≠ it.1)
          && it.2.all (fun f => decide (jt.1.dropLast ≠ it.1 ++ [f.1]))))
    && noLaterParentHits root rest

/-- Every enumerated path is the root or non-empty (true of any real
walk, where paths extend the root). -/
def itemsOK (root : Path) (L : List SeqItem) : Bool :=
  L.all (fun it => decide (it.1 = root) || decide (it.1 ≠ []))

/-! ## Parallel strategy (lines 479-509 and 512-562)

`collectDirs` is the first, top-down pass: it yields the visited
directory paths in pre-order together with their `scandir` listings,
clearing `dirnames` (descending no further) at a directory that is
beyond `max_depth` and not whitelisted, and gathers the file paths of
every visited directory in walk order.  `batchProbe` is the probe
lambda submitted per batch: paths failing the `os.path.exists`
pre-check are skipped silently, and an `OSError` from a stat call
aborts the whole comprehension, which makes `future.result()` raise and
the batch's results be dropped (lines 532-538).  `aggStep` is one
iteration of the deepest-first directory pass (lines 540-562). -/

mutual
def collectEntry (root : Path) (maxDepth : Option Nat) (follow : Bool)
    (wl : List Pat) (path : Path) : Entry → List (Path × EntryList)
  | .file _ _ => []
  | .dir n i cs =>
    if !i.isLink || follow then
      if !(matchesAny wl (relPath root (path ++ [n])))
          && overDepth maxDepth ((path ++ [n]).length - root.length) then []
      else (path ++ [n], cs) :: collectList root maxDepth follow wl (path ++ [n]) cs
    else []
def collectList (root : Path) (maxDepth : Option Nat) (follow : Bool)
    (wl : List Pat) (path : Path) : EntryList → List (Path × EntryList)
  | .nil => []
  | .cons e rest =>
    collectEntry root maxDepth follow wl path e
      ++ collectList root maxDepth follow wl path rest
end

def collectDirs (tree : Entry) (root : Path) (maxDepth : Option Nat)
    (follow : Bool) (wl : List Pat) : List (Path × EntryList) :=
  match tree with
  | .file _ _ => []
  | .dir _ _ cs =>
    if !(matchesAny wl (relPath root root))
        && overDepth maxDepth (root.length - root.length) then []
    else (root, cs) :: collectList root maxDepth follow wl root cs

def collectFiles (dirs : List (Path × EntryList)) : List (Path × Info) :=
  dirs.flatMap (fun it => (filesOf it.2).map (fun f => (it.1 ++ [f.1], f.2)))

/-- Batch splitting `file_paths[i:i+batch_size]` (lines 516-517).  The
fuel argument only bounds the recursion; `l.length` steps always
suffice because each step consumes at least one element. -/
def chunksF {α : Type} : Nat → Nat → List α → List (List α)
  | 0, _, _ => []
  | _ + 1, _, [] => []
  | fuel + 1, n, x :: xs => (x :: xs).take n :: chunksF fuel n ((x :: xs).drop n)

def chunks {α : Type} (n : Nat) (l : List α) : List (List α) :=
  chunksF l.length n l

def probeStep (follow : Bool) (acc : Option (List (Path × Nat)))
    (pi : Path × Info) : Option (List (Path × Nat)) :=
  match acc with
  | none => none
  | some res =>
    if !pi.2.ex then some res
    else match fileSize follow pi.2 with
      | some sz => some (res ++ [(pi.1, sz)])
      | none => none

def batchProbe (follow : Bool) (batch : List (Path × Info)) :
    Option (List (Path × Nat)) :=
  batch.foldl (probeStep follow) (some [])

/-- The `scandir` summation of lines 546-551: add the stored size of
every immediate child that is present in `sizes`. -/
def childSum (sizes : SizeIndex) (dirpath : Path) : EntryList → Nat
  | .nil => 0
  | .cons c rest =>
    (getIdx sizes (dirpath ++ [c.name])).getD 0 + childSum sizes dirpath rest

def aggStep (root : Path) (acc : SizeIndex × SizeIndex)
    (item : Path × EntryList) : SizeIndex × SizeIndex :=
  let dirpath := item.1
  let dirSize := childSum acc.1 dirpath item.2
  let dirSizes := setIdx acc.2 dirpath dirSize
  let sizes := setIdx acc.1 dirpath dirSize
  if dirpath ≠ root then
    (if memIdx dirSizes dirpath.dropLast then
      (sizes, addIdx dirSizes dirpath.dropLast dirSize)
     else (sizes, dirSizes))
  else (sizes, dirSizes)

def walkPar (tree : Entry) (root : Path) (maxDepth : Option Nat) (follow : Bool)
    (wl : List Pat) : SizeIndex :=
  let dirs := collectDirs tree root maxDepth follow wl
  let files := collectFiles dirs
  let batchSize := if files.length > 1000 then 500 else 100
  let batches := chunks batchSize files
  let sizes := batches.foldl (fun s b =>
    match batchProbe follow b with
    | some res => updIdx s res
    | none => s) [(root, 0)]
  ((dirs.reverse).foldl (aggStep root) (sizes, [])).1

/-- Source `walk_directory` (lines 383-623).  `root_dev` mirrors the
variable of line 415, which the body never reads again; `min_size` and
`all_files` are accepted and likewise never used by the walk. -/
def walk_directory (tree : Entry) (root : Path) (max_depth : Option Nat)
    (follow_symlinks one_filesystem : Bool) (whitelist_patterns : List Pat)
    (min_size : Nat) (all_files use_parallel : Bool) : SizeIndex :=
  let root_dev := if one_filesystem then (tree.info.st).map (fun s => s.dev) else none
  if use_parallel then
    walkPar tree root max_depth follow_symlinks whitelist_patterns
  else
    walkSeq tree root max_depth follow_symlinks whitelist_patterns

/-! ## Symlink guard (`should_follow_link`, lines 277-316)

The function is embedded over the outcomes of the system calls it
performs on its path: `lstatRes` is `os.lstat(path)`, `isLnk` is
`S_ISLNK(lstat.st_mode)`, `statRes` is `os.stat(path)` (the link
target) and `statParent` is `os.stat(os.path.dirname(path))`.  A
`none` models a raised `OSError`, which the source catches and turns
into `False`; the `TraversalError` raise is the `Except.error` case and
is not an `OSError`, so it escapes the handler. -/

def should_follow_link (lstatRes : Option StatInfo) (isLnk : Bool)
    (statRes statParent : Option StatInfo) (follow_symlinks one_filesystem : Bool)
    (visited_inodes : List (Nat × Nat)) : Except String (Bool × List (Nat × Nat)) :=
  if !follow_symlinks then .ok (false, visited_inodes)
  else
    match lstatRes with
    | none => .ok (false, visited_inodes)
    | some stat_info =>
      if !isLnk then .ok (false, visited_inodes)
      else
        let checkLoop : Except String (Bool × List (Nat × Nat)) :=
          let inode := (stat_info.dev, stat_info.ino)
          if inode ∈ visited_inodes then .error ("Symlink loop detected")
          else .ok (true, inode :: visited_inodes)
        if one_filesystem then
          match statRes, statParent with
          | some t, some pstat =>
            if t.dev ≠ pstat.dev then .ok (false, visited_inodes) else checkLoop
          | _, _ => .ok (false, visited_inodes)
        else checkLoop

/-! ## Filtering (`filter_paths`, lines 625-693) -/

def filter_paths (sizes : SizeIndex) (root : Path) (min_size : Nat)
    (cut_size : Option Nat) (whitelist_patterns blacklist_patterns : List Pat)
    (all_files : Bool) : SizeIndex :=
  let wlMatches : List Path :=
    if !whitelist_patterns.isEmpty then
      (sizes.filter (fun kv => matchesAny whitelist_patterns (relPath root kv.1))).map
        (fun kv => kv.1)
    else []
  let filtered := sizes.foldl (fun acc kv =>
    let rel := relPath root kv.1
    let isWl := decide (kv.1 ∈ wlMatches)
    let keep :=
      if !whitelist_patterns.isEmpty then isWl
      else if !blacklist_patterns.isEmpty then !(matchesAny blacklist_patterns rel)
      else true
    if !keep then acc
    else if !all_files && !isWl && kv.2 < min_size then acc
    else acc ++ [kv]) []
  match cut_size with
  | none => filtered
  | some c => filtered.filter (fun kv => decide (c ≤ kv.2) || decide (kv.1 ∈ wlMatches))

/-! ## Size formatting (`format_size`, lines 140-165)

Modelled with exact integer arithmetic in hundredths.  For sizes below
2 to the 53rd power the binary floating-point quotient
`size_bytes / 1024 ** i` is exact (the divisor is a power of two), and
CPython `round(x, 2)` on that exact value is round-half-to-even, so the
two decimal digits ultimately printed by the format string are exactly
`divRoundHalfEven (100 * n) (1024 ** i)` hundredths (a tie is possible
only when the quotient's reduced denominator is 8, and is then exact in
binary as well).  `math.floor(math.log(n, 1024))` is `Nat.log 1024 n`.
The list indexing `size_names[i]` is partial in Python (`IndexError`
beyond the last unit), hence the `Option`. -/

def size_names : List String := ["B", "KB", "MB", "GB", "TB", "PB"]

/-- Base-1024 integer logarithm, `int(math.floor(math.log(n, 1024)))`.
The fuel argument only bounds the recursion; `n` steps always suffice
because the argument shrinks by a factor of 1024 each step.
`logF_spec` below characterises it by the power sandwich. -/
def logF : Nat → Nat → Nat
  | 0, _ => 0
  | fuel + 1, n => if n < 1024 then 0 else logF fuel (n / 1024) + 1

def intLog1024 (n : Nat) : Nat := logF n n

/-- Nearest integer to `t / d`, ties to even: the rounding CPython
`round` applies. -/
def divRoundHalfEven (t d : Nat) : Nat :=
  let q := t / d
  let r := t % d
  if 2 * r < d then q
  else if d < 2 * r then q + 1
  else if q % 2 = 0 then q else q + 1

/-- The value `round(size_bytes / 1024 ** i, 2)` expressed in
hundredths. -/
def mantissaHundredths (n i : Nat) : Nat :=
  divRoundHalfEven (100 * n) (1024 ^ i)

/-- Rendering `f"\x7bs:.2f\x7d"` of a non-negative two-decimal value
given in hundredths. -/
def renderHundredths (k : Nat) : String :=
  toString (k / 100) ++ "."
    ++ (if k % 100 < 10 then "0" ++ toString (k % 100) else toString (k % 100))

def format_size (size_bytes : Nat) : Option String :=
  if size_bytes = 0 then some ("0 B")
  else
    let i := intLog1024 size_bytes
    let k := mantissaHundredths size_bytes i
    let bumped := decide (102400 ≤ k) && decide (i + 1 < size_names.length)
    let i2 := if bumped then i + 1 else i
    let k2 := if bumped then divRoundHalfEven k 1024 else k
    (size_names.get? i2).map (fun u => renderHundredths k2 ++ " " ++ u)

/-- Modelled from the spec: the claimed rendering rule, "choosing the
largest unit such that the mantissa lies in [1, 1024)", i.e. the
largest exponent `i` with `1024 ^ i ≤ n < 1024 ^ (i + 1)`, the mantissa
then printed with two decimal places. -/
def spec_format_size (n : Nat) : Option String :=
  if n = 0 then some ("0 B")
  else
    ([5, 4, 3, 2, 1, 0].find? (fun i =>
        decide (1024 ^ i ≤ n) && decide (n < 1024 ^ (i + 1)))).map
      (fun i => renderHundredths (mantissaHundredths n i) ++ " "
        ++ size_names.getD i (""))

/-! ## The claim C1 invariant as a checker

`c1Check` decides, for a snapshot and an index, the spec invariant
"for every directory D present in the index,
`size(D) = ownBlocks(D) + sum of the stored sizes of the direct
children of D that are present in the index`", with
`ownBlocks = st_blocks * 512` of the directory itself. -/

mutual
def dirsOfEntry (path : Path) : Entry → List (Path × Info × EntryList)
  | .file _ _ => []
  | .dir n i cs => (path ++ [n], i, cs) :: dirsOfList (path ++ [n]) cs
def dirsOfList (path : Path) : EntryList → List (Path × Info × EntryList)
  | .nil => []
  | .cons e rest => dirsOfEntry path e ++ dirsOfList path rest
end

def allDirs (root : Path) (tree : Entry) : List (Path × Info × EntryList) :=
  match tree with
  | .file _ _ => []
  | .dir _ i cs => (root, i, cs) :: dirsOfList root cs

def c1Check (root : Path) (tree : Entry) (idx : SizeIndex) : Bool :=
  (allDirs root tree).all (fun d =>
    match getIdx idx d.1 with
    | none => true
    | some v =>
      decide (v = (d.2.1.st.map (fun s => s.blocks * 512)).getD 0
        + childSum idx d.1 d.2.2))

/-! ## Concrete snapshots used by the claim theorems -/

/-- An entry all of whose stat calls succeed on device `dv` with `b`
512-byte blocks. -/
def okInfo (dv b : Nat) : Info := ⟨false, true, some ⟨dv, 0, b⟩, some ⟨dv, 0, b⟩⟩

/-- An entry that `os.path.exists` still reports, but whose stat probe
then fails: the vanished-mid-scan race the spec's `AccessError`
explicitly covers. -/
def raceInfo : Info := ⟨false, true, none, none⟩

/-- Snapshot `r/d/f`: a root directory holding one subdirectory `d`
with a single 512-byte file `f`; every stat succeeds, the directories
own 8 blocks each. -/
def snapNested : Entry :=
  .dir ("r") (okInfo 1 8)
    (.cons (.dir ("d") (okInfo 1 8) (.cons (.file ("f") (okInfo 1 1)) .nil)) .nil)

/-- Snapshot for one-filesystem mode: the root lives on device 1, its
subdirectory `m` is a mount point on device 2 holding a file `g`. -/
def snapCrossDev : Entry :=
  .dir ("r") (okInfo 1 8)
    (.cons (.dir ("m") (okInfo 2 8) (.cons (.file ("g") (okInfo 2 1)) .nil)) .nil)

/-- Snapshot `r/a/b/c/f` with `c` at depth 3. -/
def snapDeepWl : Entry :=
  .dir ("r") (okInfo 1 8)
    (.cons (.dir ("a") (okInfo 1 8)
      (.cons (.dir ("b") (okInfo 1 8)
        (.cons (.dir ("c") (okInfo 1 8) (.cons (.file ("f") (okInfo 1 1)) .nil)) .nil))
        .nil)) .nil)

/-- A whitelist whose single (regex) pattern matches exactly the
root-relative path `a/b/c` of the depth-3 directory of `snapDeepWl`. -/
def wlDeep : List Pat := [Pat.regex (fun s => decide (s = "a/b/c"))]

/-- Snapshot for the probe-failure claim: file `a` hits the mid-scan
race, file `b` is a healthy 512-byte file; both live in the root
directory and land in the same probe batch. -/
def snapRace : Entry :=
  .dir ("r") (okInfo 1 8)
    (.cons (.file ("a") raceInfo) (.cons (.file ("b") (okInfo 1 1)) .nil))

/-! ## Helper lemmas: the size index -/

theorem getIdx_setIdx_same (m : SizeIndex) (p : Path) (v : Nat) :
    getIdx (setIdx m p v) p = some v := by
  induction m with
  | nil => simp [setIdx, getIdx]
  | cons kv rest ih =>
    by_cases h : kv.1 = p <;> simp [setIdx, getIdx, h, ih]

theorem getIdx_setIdx_other (m : SizeIndex) (p q : Path) (v : Nat)
    (h : p ≠ q) : getIdx (setIdx m p v) q = getIdx m q := by
  induction m with
  | nil => simp [setIdx, getIdx, h]
  | cons kv rest ih =>
    by_cases hk : kv.1 = p
    · subst hk; simp [setIdx, getIdx, h]
    · simp [setIdx, getIdx, hk, ih]

theorem getIdx_addIdx_other (m : SizeIndex) (p q : Path) (v : Nat)
    (h : p ≠ q) : getIdx (addIdx m p v) q = getIdx m q := by
  induction m with
  | nil => simp [addIdx]
  | cons kv rest ih =>
    by_cases hk : kv.1 = p
    · subst hk; simp [addIdx, getIdx, h]
    · simp [addIdx, getIdx, hk, ih]

theorem getIdx_addIdx_none (m : SizeIndex) (p : Path) (v : Nat)
    (h : getIdx m p = none) : getIdx (addIdx m p v) p = none := by
  induction m with
  | nil => exact h
  | cons kv rest ih =>
    by_cases hk : kv.1 = p
    · subst hk; simp [getIdx] at h
    · simp [getIdx, hk] at h
      simp [addIdx, getIdx, hk, ih h]

/-! ## Helper lemmas: the integer logarithm -/

theorem logF_spec : ∀ fuel n, 0 < n → n ≤ fuel →
    1024 ^ logF fuel n ≤ n ∧ n < 1024 ^ (logF fuel n + 1) := by
  intro fuel
  induction fuel with
  | zero => intro n h1 h2; omega
  | succ f ih =>
    intro n h1 h2
    by_cases hlt : n < 1024
    · simp [logF, hlt]; omega
    · have hq1 : 0 < n / 1024 := Nat.div_pos (by omega) (by omega)
      have hqf : n / 1024 ≤ f := by
        have := Nat.div_lt_self h1 (show 1 < 1024 by omega)
        omega
      obtain ⟨ihl, ihr⟩ := ih (n / 1024) hq1 hqf
      constructor
      · simp only [logF, if_neg (by omega : ¬ n < 1024)]
        calc 1024 ^ (logF f (n / 1024) + 1) = 1024 ^ logF f (n / 1024) * 1024 := by ring
        _ ≤ n / 1024 * 1024 := by omega
        _ ≤ n := by omega
      · simp only [logF, if_neg (by omega : ¬ n < 1024)]
        calc n < (n / 1024 + 1) * 1024 := by omega
        _ ≤ 1024 ^ (logF f (n / 1024) + 1) * 1024 := by
            have : n / 1024 + 1 ≤ 1024 ^ (logF f (n / 1024) + 1) := by omega
            exact Nat.mul_le_mul_right _ this
        _ = 1024 ^ (logF f (n / 1024) + 1 + 1) := by ring

theorem intLog1024_spec (n : Nat) (h : 0 < n) :
    1024 ^ intLog1024 n ≤ n ∧ n < 1024 ^ (intLog1024 n + 1) :=
  logF_spec n n h le_rfl

theorem divRoundHalfEven_ge (t d : Nat) : t / d ≤ divRoundHalfEven t d := by
  simp only [divRoundHalfEven]
  repeat' split
  all_goals omega

theorem divRoundHalfEven_le (t d : Nat) : divRoundHalfEven t d ≤ t / d + 1 := by
  simp only [divRoundHalfEven]
  repeat' split
  all_goals omega

theorem divRoundHalfEven_up (t d : Nat)
    (h : divRoundHalfEven t d = t / d + 1) : d ≤ 2 * (t % d) := by
  simp only [divRoundHalfEven] at h
  repeat' split at h
  all_goals omega

theorem size_names_lookup (i : Nat) (h : i < 6) :
    size_names.get? i = some (size_names.getD i ("")) := by
  interval_cases i <;> rfl

/-- The positive branch of `format_size` with the two let-bound `if`s
exposed. -/
theorem format_size_split (n : Nat) (hn : ¬ n = 0) :
    format_size n
      = if (decide (102400 ≤ mantissaHundredths n (intLog1024 n))
            && decide (intLog1024 n + 1 < size_names.length)) = true
        then (size_names.get? (intLog1024 n + 1)).map
          (fun u => renderHundredths
            (divRoundHalfEven (mantissaHundredths n (intLog1024 n)) 1024)
            ++ " " ++ u)
        else (size_names.get? (intLog1024 n)).map
          (fun u => renderHundredths (mantissaHundredths n (intLog1024 n))
            ++ " " ++ u) := by
  rw [format_size, if_neg hn]
  by_cases hc : (decide (102400 ≤ mantissaHundredths n (intLog1024 n))
      && decide (intLog1024 n + 1 < size_names.length)) = true
  · simp only [hc, if_true, eq_self_iff_true]
  · simp only [Bool.not_eq_true] at hc
    simp only [hc, Bool.false_eq_true, if_false]

/-! ## Helper lemmas: lookups, membership and filtering -/

theorem getIdx_mem {m : SizeIndex} {p : Path} {v : Nat}
    (h : getIdx m p = some v) : (p, v) ∈ m := by
  induction m with
  | nil => simp [getIdx] at h
  | cons kv rest ih =>
    by_cases hk : kv.1 = p
    · subst hk
      simp [getIdx] at h
      subst h
      exact List.mem_cons_self _ _
    · simp [getIdx, hk] at h
      exact List.mem_cons_of_mem _ (ih h)

theorem mem_keys_of_getIdx {m : SizeIndex} {p : Path} {v : Nat}
    (h : getIdx m p = some v) : p ∈ m.map Prod.fst :=
  List.mem_map.mpr ⟨(p, v), getIdx_mem h, rfl⟩

theorem getIdx_eq_none_of_not_mem {m : SizeIndex} {p : Path}
    (h : p ∉ m.map Prod.fst) : getIdx m p = none := by
  induction m with
  | nil => rfl
  | cons kv rest ih =>
    simp only [List.map_cons, List.mem_cons] at h
    push_neg at h
    simp [getIdx, Ne.symm h.1, ih h.2]

theorem getIdx_filter_nodup {m : SizeIndex} {p : Path} {v : Nat}
    (f : Path × Nat → Bool) (hN : (m.map Prod.fst).Nodup)
    (hv : getIdx m p = some v) :
    getIdx (m.filter f) p = if f (p, v) then some v else none := by
  induction m with
  | nil => simp [getIdx] at hv
  | cons kv rest ih =>
    obtain ⟨k, w⟩ := kv
    simp only [List.map_cons, List.nodup_cons] at hN
    by_cases hk : k = p
    · subst hk
      have hv' : w = v := by simpa [getIdx] using hv
      subst hv'
      have hrest : getIdx (rest.filter f) k = none := by
        refine getIdx_eq_none_of_not_mem (fun hmem => hN.1 ?_)
        obtain ⟨x, hx, hfx⟩ := List.mem_map.mp hmem
        exact List.mem_map.mpr ⟨x, (List.mem_filter.mp hx).1, hfx⟩
      by_cases hf : f (k, w)
      · simp [List.filter_cons, hf, getIdx]
      · simp [List.filter_cons, hf, hrest]
    · simp only [getIdx, if_neg hk] at hv
      by_cases hf : f (k, w)
      · simp [List.filter_cons, hf, getIdx, hk, ih hN.2 hv]
      · simp [List.filter_cons, hf, ih hN.2 hv]

theorem foldl_keep_append (g h : Path × Nat → Bool) :
    ∀ (l : SizeIndex) (acc : SizeIndex),
      l.foldl (fun a kv => if !(g kv) then a else if h kv then a else a ++ [kv]) acc
        = acc ++ l.filter (fun kv => g kv && !(h kv)) := by
  intro l
  induction l with
  | nil => intro acc; simp
  | cons kv rest ih =>
    intro acc
    rw [List.foldl_cons, List.filter_cons]
    by_cases hg : g kv
    · by_cases hh : h kv
      · rw [if_neg (by simp [hg]), if_pos hh, ih]
        simp [hg, hh]
      · rw [if_neg (by simp [hg]), if_neg hh, ih]
        simp [hg, hh]
    · rw [if_pos (by simp [hg]), ih]
      simp [hg]

/-- The whitelist-match set computed by the first pass of
`filter_paths` contains a key of the index exactly when the patterns
are non-empty and one of them matches its root-relative path. -/
theorem mem_wlMatches {sizes : SizeIndex} {p : Path} {v : Nat}
    (wl : List Pat) (root : Path) (hv : getIdx sizes p = some v) :
    decide (p ∈ (if !wl.isEmpty then
        (sizes.filter (fun kv => matchesAny wl (relPath root kv.1))).map
          (fun kv => kv.1)
      else [])) = (!wl.isEmpty && matchesAny wl (relPath root p)) := by
  by_cases he : wl.isEmpty
  · simp [he]
  · simp only [he, Bool.not_false, if_pos, Bool.true_and]
    by_cases hm : matchesAny wl (relPath root p)
    · simp only [hm, decide_eq_true_eq]
      exact List.mem_map.mpr ⟨(p, v), List.mem_filter.mpr ⟨getIdx_mem hv, hm⟩, rfl⟩
    · simp only [hm, decide_eq_false_iff_not]
      intro hmem
      obtain ⟨x, hx, hfx⟩ := List.mem_map.mp hmem
      have := (List.mem_filter.mp hx).2
      rw [hfx] at this
      exact hm this

theorem getIdx_none_not_mem {m : SizeIndex} {p : Path}
    (h : getIdx m p = none) : p ∉ m.map Prod.fst := by
  induction m with
  | nil => simp
  | cons kv rest ih =>
    by_cases hk : kv.1 = p
    · rw [getIdx, if_pos hk] at h
      simp at h
    · rw [getIdx, if_neg hk] at h
      simp only [List.map_cons, List.mem_cons]
      push_neg
      exact ⟨fun hh => hk hh.symm, ih h⟩

theorem nodup_keys_filter {m : SizeIndex} (f : Path × Nat → Bool)
    (hN : (m.map Prod.fst).Nodup) : ((m.filter f).map Prod.fst).Nodup :=
  ((List.filter_sublist m).map Prod.fst).nodup hN

theorem getIdx_filter_filter {m : SizeIndex} {p : Path} {v : Nat}
    (f g : Path × Nat → Bool) (hN : (m.map Prod.fst).Nodup)
    (hv : getIdx m p = some v) :
    getIdx ((m.filter f).filter g) p
      = if f (p, v) && g (p, v) then some v else none := by
  by_cases hf : f (p, v)
  · have h1 : getIdx (m.filter f) p = some v := by
      rw [getIdx_filter_nodup f hN hv, if_pos hf]
    rw [getIdx_filter_nodup g (nodup_keys_filter f hN) h1]
    simp [hf]
  · have h1 : getIdx (m.filter f) p = none := by
      rw [getIdx_filter_nodup f hN hv, if_neg hf]
    have h2 : getIdx ((m.filter f).filter g) p = none := by
      refine getIdx_eq_none_of_not_mem (fun hmem => getIdx_none_not_mem h1 ?_)
      obtain ⟨x, hx, hfx⟩ := List.mem_map.mp hmem
      exact List.mem_map.mpr ⟨x, (List.mem_filter.mp hx).1, hfx⟩
    rw [h2, if_neg (by simp [hf])]

theorem iteB_congr {α : Type} {x y : α} {b1 b2 : Bool} (h : b1 = b2) :
    (if b1 = true then x else y) = (if b2 = true then x else y) := by rw [h]

/-- Full lookup-level characterisation of `filter_paths`: a key of the
input survives exactly the three stages the source applies — whitelist
or blacklist membership, the inclusive size floor with its whitelist
and `all_files` exemptions, and the final cut with its whitelist
exemption — and keeps its value. -/
theorem filter_paths_char (sizes : SizeIndex) (root : Path) (min_size : Nat)
    (cut_size : Option Nat) (wl bl : List Pat) (all_files : Bool)
    (p : Path) (v : Nat)
    (hN : (sizes.map Prod.fst).Nodup) (hv : getIdx sizes p = some v) :
    getIdx (filter_paths sizes root min_size cut_size wl bl all_files) p =
      (let isWl := !wl.isEmpty && matchesAny wl (relPath root p)
       let keep := if !wl.isEmpty then isWl
         else if !bl.isEmpty then !(matchesAny bl (relPath root p)) else true
       let floorKeep := all_files || isWl || decide (min_size ≤ v)
       let cutKeep := match cut_size with
         | none => true
         | some c => decide (c ≤ v) || isWl
       if keep && floorKeep && cutKeep then some v else none) := by
  have hwl := mem_wlMatches wl root hv
  have hd : decide (v < min_size) = !(decide (min_size ≤ v)) := by
    by_cases h : v < min_size
    · simp [h, Nat.not_le.mpr h]
    · simp [h, Nat.le_of_not_lt h]
  simp only [filter_paths]
  rw [foldl_keep_append]
  simp only [List.nil_append]
  cases cut_size with
  | none =>
    rw [getIdx_filter_nodup _ hN hv]
    dsimp only
    rw [hwl, hd]
    apply iteB_congr
    generalize wl.isEmpty = a
    generalize bl.isEmpty = b
    generalize matchesAny wl (relPath root p) = wm
    generalize matchesAny bl (relPath root p) = bm
    generalize decide (min_size ≤ v) = d2
    cases a <;> cases b <;> cases wm <;> cases bm <;> cases all_files <;>
      cases d2 <;> decide
  | some c =>
    rw [getIdx_filter_filter _ _ hN hv]
    dsimp only
    rw [hwl, hd]
    apply iteB_congr
    generalize wl.isEmpty = a
    generalize bl.isEmpty = b
    generalize matchesAny wl (relPath root p) = wm
    generalize matchesAny bl (relPath root p) = bm
    generalize decide (min_size ≤ v) = d2
    generalize decide (c ≤ v) = c1
    cases a <;> cases b <;> cases wm <;> cases bm <;> cases all_files <;>
      cases d2 <;> cases c1 <;> decide

theorem getIdx_of_mem_nodup {m : SizeIndex} {p : Path} {v : Nat}
    (hmem : (p, v) ∈ m) (hN : (m.map Prod.fst).Nodup) : getIdx m p = some v := by
  induction m with
  | nil => simp at hmem
  | cons kv rest ih =>
    obtain ⟨k, w⟩ := kv
    simp only [List.map_cons, List.nodup_cons] at hN
    rcases List.mem_cons.mp hmem with heq | hrest
    · obtain ⟨h1, h2⟩ := Prod.mk.injEq .. ▸ heq
      cases heq
      simp [getIdx]
    · have hk : k ≠ p := by
        intro hk
        subst hk
        exact hN.1 (List.mem_map.mpr ⟨(k, v), hrest, rfl⟩)
      simp [getIdx, hk, ih hrest hN.2]

/-- The filtered index is a sublist of its input. -/
theorem filter_paths_sublist (sizes : SizeIndex) (root : Path) (min_size : Nat)
    (cut_size : Option Nat) (wl bl : List Pat) (all_files : Bool) :
    (filter_paths sizes root min_size cut_size wl bl all_files).Sublist sizes := by
  simp only [filter_paths]
  rw [foldl_keep_append]
  simp only [List.nil_append]
  cases cut_size with
  | none => exact List.filter_sublist sizes
  | some c => exact ((List.filter_sublist _).trans (List.filter_sublist sizes))

/-! ## Helper lemmas: glob semantics -/

theorem fnmatchL_star_iff (ps : List Char) :
    ∀ s : List Char, fnmatchL ('*' :: ps) s = true
      ↔ ∃ t, t.IsSuffix s ∧ fnmatchL ps t = true := by
  intro s
  induction s with
  | nil =>
    simp only [fnmatchL]
    constructor
    · intro h; exact ⟨[], List.nil_suffix, h⟩
    · rintro ⟨t, hts, ht⟩
      rw [List.suffix_nil.mp hts] at ht
      exact ht
  | cons c cs ih =>
    simp only [fnmatchL, Bool.or_eq_true]
    constructor
    · rintro (h | h)
      · exact ⟨c :: cs, List.suffix_refl _, h⟩
      · obtain ⟨t, hts, ht⟩ := ih.mp h
        exact ⟨t, hts.trans (List.suffix_cons c cs), ht⟩
    · rintro ⟨t, hts, ht⟩
      rcases List.suffix_cons_iff.mp hts with heq | hsuf
      · subst heq; exact Or.inl ht
      · exact Or.inr (ih.mpr ⟨t, hsuf, ht⟩)

theorem fnmatchL_slash (p : List Char) (t : List Char) :
    fnmatchL ('/' :: p) t = true ↔ ∃ y, t = '/' :: y ∧ fnmatchL p y = true := by
  cases t with
  | nil =>
    rw [fnmatchL.eq_10 _ _ (by decide) (by decide) (by decide)]
    simp
  | cons c cs =>
    rw [fnmatchL.eq_9 _ _ _ _ (by decide) (by decide) (by decide)]
    simp only [Bool.and_eq_true, beq_iff_eq]
    constructor
    · rintro ⟨hc, hm⟩; exact ⟨cs, by rw [hc], hm⟩
    · rintro ⟨y, hy, hm⟩
      cases hy
      exact ⟨rfl, hm⟩

/-! ## Helper lemmas: the sequential walk -/

theorem skipB_root (root : Path) (maxd : Option Nat) (wl : List Pat) :
    skipB root maxd wl root = false := by
  cases maxd <;> simp [skipB, overDepth]

theorem skipB_nil_wl (root : Path) (maxd : Option Nat) (dirpath : Path) :
    skipB root maxd [] dirpath
      = overDepth maxd (dirpath.length - root.length) := by
  simp [skipB, matchesAny]

/-- The recording condition of line 601 is the negation of the skip
condition of line 579. -/
theorem record_eq_not_skip (maxd : Option Nat) (depth : Nat) (w : Bool) :
    ((match maxd with
      | none => true
      | some d => decide (depth ≤ d)) || w)
      = !(!w && overDepth maxd depth) := by
  cases maxd with
  | none => cases w <;> simp [overDepth]
  | some d =>
    cases w
    · by_cases h : depth ≤ d
      · simp [overDepth, h, Nat.not_lt.mpr h]
      · simp [overDepth, h, Nat.lt_of_not_le h]
    · simp [overDepth]

theorem seqFileFold_snd (follow : Bool) (record : Bool) (dirpath : Path) :
    ∀ (files : List (String × Info)) (sizes : SizeIndex) (acc : Nat),
      (files.foldl (seqFileStep follow record dirpath) (sizes, acc)).2
        = acc + okFileSum follow files := by
  intro files
  induction files with
  | nil => intro sizes acc; simp [okFileSum]
  | cons f fs ih =>
    intro sizes acc
    cases hfs : fileSize follow f.2 with
    | none => simp [List.foldl_cons, seqFileStep, hfs, okFileSum, ih]
    | some sz =>
      simp only [List.foldl_cons, seqFileStep, hfs, okFileSum, ih]
      omega

theorem seqFileFold_fst_untouched (follow : Bool) (record : Bool) (dirpath : Path) :
    ∀ (files : List (String × Info)) (sizes : SizeIndex) (acc : Nat) (k : Path),
      (∀ f ∈ files, k ≠ dirpath ++ [f.1]) →
      getIdx (files.foldl (seqFileStep follow record dirpath) (sizes, acc)).1 k
        = getIdx sizes k := by
  intro files
  induction files with
  | nil => intro sizes acc k _; rfl
  | cons f fs ih =>
    intro sizes acc k hk
    have hkf := hk f (List.mem_cons_self f fs)
    have hrest := fun g hg => hk g (List.mem_cons_of_mem f hg)
    cases hfs : fileSize follow f.2 with
    | none => simp only [List.foldl_cons, seqFileStep, hfs]; exact ih _ _ _ hrest
    | some sz =>
      simp only [List.foldl_cons, seqFileStep, hfs]
      rw [ih _ _ _ hrest]
      cases record with
      | false => rfl
      | true => exact getIdx_setIdx_other _ _ _ _ (fun h => hkf h.symm)

theorem seqFileFold_fst_at_key (follow : Bool) (dirpath : Path) :
    ∀ (files : List (String × Info)) (sizes : SizeIndex) (acc : Nat)
      (g : String) (i : Info),
      (files.map Prod.fst).Nodup → (g, i) ∈ files →
      getIdx (files.foldl (seqFileStep follow true dirpath) (sizes, acc)).1
          (dirpath ++ [g])
        = (match fileSize follow i with
           | some sz => some sz
           | none => getIdx sizes (dirpath ++ [g])) := by
  intro files
  induction files with
  | nil => intro _ _ _ _ _ hmem; simp at hmem
  | cons f fs ih =>
    intro sizes acc g i hnd hmem
    simp only [List.map_cons, List.nodup_cons] at hnd
    rcases List.mem_cons.mp hmem with heq | hmem'
    · cases heq
      have hrest : ∀ f' ∈ fs, dirpath ++ [g] ≠ dirpath ++ [f'.1] := by
        intro f' hf' h
        have : g = f'.1 := by simpa using h
        exact hnd.1 (this ▸ List.mem_map.mpr ⟨f', hf', rfl⟩)
      cases hfs : fileSize follow i with
      | none =>
        simp only [List.foldl_cons, seqFileStep, hfs]
        exact seqFileFold_fst_untouched _ _ _ _ _ _ _ hrest
      | some sz =>
        simp only [List.foldl_cons, seqFileStep, hfs, if_pos]
        rw [seqFileFold_fst_untouched _ _ _ _ _ _ _ hrest]
        exact getIdx_setIdx_same _ _ _
    · have hne : f.1 ≠ g := by
        intro h
        exact hnd.1 (h ▸ List.mem_map.mpr ⟨(g, i), hmem', rfl⟩)
      cases hfs : fileSize follow f.2 with
      | none =>
        simp only [List.foldl_cons, seqFileStep, hfs]
        rw [ih _ _ _ _ hnd.2 hmem']
      | some sz =>
        simp only [List.foldl_cons, seqFileStep, hfs, if_pos]
        rw [ih _ _ _ _ hnd.2 hmem']
        have : getIdx (setIdx sizes (dirpath ++ [f.1]) sz) (dirpath ++ [g])
            = getIdx sizes (dirpath ++ [g]) :=
          getIdx_setIdx_other _ _ _ _ (fun h => hne (by simpa using h))
        rw [this]

theorem seqFileFold_fst_norecord (follow : Bool) (dirpath : Path) :
    ∀ (files : List (String × Info)) (sizes : SizeIndex) (acc : Nat),
      (files.foldl (seqFileStep follow false dirpath) (sizes, acc)).1 = sizes := by
  intro files
  induction files with
  | nil => intro _ _; rfl
  | cons f fs ih =>
    intro sizes acc
    cases hfs : fileSize follow f.2 <;>
      simp [List.foldl_cons, seqFileStep, hfs, ih]

theorem getIdx_addIdx_none_any (m : SizeIndex) (p k : Path) (v : Nat)
    (h : getIdx m k = none) : getIdx (addIdx m p v) k = none := by
  by_cases hpk : p = k
  · subst hpk; exact getIdx_addIdx_none _ _ _ h
  · rw [getIdx_addIdx_other _ _ _ _ hpk]; exact h

/-- Lookup through the parent-add tail of the loop body (lines
610-614): the add targets `dirname(dirpath)`, so any other key is
untouched. -/
theorem seqTail_getIdx (root dirpath : Path) (sizes2 : SizeIndex) (v : Nat)
    (k : Path) (hdl : dirpath = root ∨ dirpath.dropLast ≠ k) :
    getIdx (if dirpath ≠ root then
        (if memIdx sizes2 dirpath.dropLast then addIdx sizes2 dirpath.dropLast v
         else sizes2)
      else sizes2) k = getIdx sizes2 k := by
  by_cases hr : dirpath = root
  · rw [if_neg (not_not_intro hr)]
  · rw [if_pos hr]
    rcases hdl with h | h
    · exact absurd h hr
    · by_cases hm : memIdx sizes2 dirpath.dropLast
      · rw [if_pos hm]; exact getIdx_addIdx_other _ _ _ _ h
      · rw [if_neg hm]

theorem seqTail_none (root dirpath : Path) (sizes2 : SizeIndex) (v : Nat)
    (k : Path) (h : getIdx sizes2 k = none) :
    getIdx (if dirpath ≠ root then
        (if memIdx sizes2 dirpath.dropLast then addIdx sizes2 dirpath.dropLast v
         else sizes2)
      else sizes2) k = none := by
  by_cases hr : dirpath = root
  · rw [if_neg (not_not_intro hr)]; exact h
  · rw [if_pos hr]
    by_cases hm : memIdx sizes2 dirpath.dropLast
    · rw [if_pos hm]; exact getIdx_addIdx_none_any _ _ _ _ h
    · rw [if_neg hm]; exact h

theorem seqStep_skip (root : Path) (maxd : Option Nat) (follow : Bool)
    (wl : List Pat) (m : SizeIndex) (it : SeqItem)
    (h : skipB root maxd wl it.1 = true) :
    seqStep root maxd follow wl m it = m := by
  simp only [seqStep]
  rw [if_pos (by simpa [skipB] using h)]

/-- The loop body in the non-skipped case: the recording condition is
then true, the file loop runs with recording on, the directory key is
assigned the file total, and the guarded parent-add follows. -/
theorem seqStep_eq_not_skip (root : Path) (maxd : Option Nat) (follow : Bool)
    (wl : List Pat) (m : SizeIndex) (it : SeqItem)
    (h : skipB root maxd wl it.1 = false) :
    seqStep root maxd follow wl m it
      = (let st := it.2.foldl (seqFileStep follow true it.1) (m, 0)
         let sizes2 := setIdx st.1 it.1 st.2
         if it.1 ≠ root then
           (if memIdx sizes2 it.1.dropLast then addIdx sizes2 it.1.dropLast st.2
            else sizes2)
         else sizes2) := by
  simp only [seqStep]
  rw [if_neg (fun hc => by simp [skipB, hc] at h)]
  have hrec := record_eq_not_skip maxd (it.1.length - root.length)
    (matchesAny wl (relPath root it.1))
  have hskipf : (!(matchesAny wl (relPath root it.1))
      && overDepth maxd (it.1.length - root.length)) = false := by
    simpa [skipB] using h
  rw [hskipf] at hrec
  simp only [Bool.not_false] at hrec
  rw [hrec]

theorem seqStep_dir (root : Path) (maxd : Option Nat) (follow : Bool)
    (wl : List Pat) (m : SizeIndex) (it : SeqItem)
    (h : skipB root maxd wl it.1 = false) (hroot : it.1 = root ∨ it.1 ≠ []) :
    getIdx (seqStep root maxd follow wl m it) it.1
      = some (okFileSum follow it.2) := by
  rw [seqStep_eq_not_skip _ _ _ _ _ _ h]
  have hdl : it.1 = root ∨ it.1.dropLast ≠ it.1 := by
    rcases hroot with hr | hne
    · exact Or.inl hr
    · refine Or.inr (fun hh => ?_)
      have hlen := congrArg List.length hh
      rw [List.length_dropLast] at hlen
      have h0 : it.1.length ≠ 0 := fun hz => hne (List.eq_nil_of_length_eq_zero hz)
      omega
  rw [seqTail_getIdx _ _ _ _ _ hdl, getIdx_setIdx_same, seqFileFold_snd]
  simp

theorem seqStep_file (root : Path) (maxd : Option Nat) (follow : Bool)
    (wl : List Pat) (m : SizeIndex) (it : SeqItem) (g : String) (i : Info)
    (h : skipB root maxd wl it.1 = false)
    (hnd : (it.2.map Prod.fst).Nodup) (hmem : (g, i) ∈ it.2) :
    getIdx (seqStep root maxd follow wl m it) (it.1 ++ [g])
      = (match fileSize follow i with
         | some sz => some sz
         | none => getIdx m (it.1 ++ [g])) := by
  rw [seqStep_eq_not_skip _ _ _ _ _ _ h]
  have hdl : it.1 = root ∨ it.1.dropLast ≠ it.1 ++ [g] := by
    refine Or.inr (fun hh => ?_)
    have hlen := congrArg List.length hh
    rw [List.length_dropLast, List.length_append] at hlen
    simp at hlen
  rw [seqTail_getIdx _ _ _ _ _ hdl]
  have hset : it.1 ≠ it.1 ++ [g] := by
    intro hh
    have := congrArg List.length hh
    simp at this
  rw [getIdx_setIdx_other _ _ _ _ hset]
  exact seqFileFold_fst_at_key _ _ _ _ _ _ _ hnd hmem

theorem seqStep_untouched (root : Path) (maxd : Option Nat) (follow : Bool)
    (wl : List Pat) (m : SizeIndex) (it : SeqItem) (k : Path)
    (hk1 : k ≠ it.1) (hk2 : ∀ f ∈ it.2, k ≠ it.1 ++ [f.1])
    (hk3 : it.1 = root ∨ it.1.dropLast ≠ k) :
    getIdx (seqStep root maxd follow wl m it) k = getIdx m k := by
  by_cases hs : skipB root maxd wl it.1
  · rw [seqStep_skip _ _ _ _ _ _ hs]
  · rw [seqStep_eq_not_skip _ _ _ _ _ _ (Bool.not_eq_true _ ▸ hs)]
    rw [seqTail_getIdx _ _ _ _ _ hk3]
    rw [getIdx_setIdx_other _ _ _ _ (fun hh => hk1 hh.symm)]
    exact seqFileFold_fst_untouched _ _ _ _ _ _ _ hk2

theorem seqStep_none (root : Path) (maxd : Option Nat) (follow : Bool)
    (wl : List Pat) (m : SizeIndex) (it : SeqItem) (k : Path)
    (hm0 : getIdx m k = none)
    (hk1 : k ≠ it.1) (hk2 : ∀ f ∈ it.2, k ≠ it.1 ++ [f.1]) :
    getIdx (seqStep root maxd follow wl m it) k = none := by
  by_cases hs : skipB root maxd wl it.1
  · rw [seqStep_skip _ _ _ _ _ _ hs]; exact hm0
  · rw [seqStep_eq_not_skip _ _ _ _ _ _ (Bool.not_eq_true _ ▸ hs)]
    refine seqTail_none _ _ _ _ _ ?_
    rw [getIdx_setIdx_other _ _ _ _ (fun hh => hk1 hh.symm)]
    rw [seqFileFold_fst_untouched _ _ _ _ _ _ _ hk2]
    exact hm0

theorem mem_seqKeys_dir {L : List SeqItem} {it : SeqItem} (h : it ∈ L) :
    it.1 ∈ seqKeys L :=
  List.mem_flatMap.mpr ⟨it, h, List.mem_cons_self _ _⟩

theorem mem_seqKeys_file {L : List SeqItem} {it : SeqItem} {g : String} {i : Info}
    (h : it ∈ L) (hf : (g, i) ∈ it.2) : it.1 ++ [g] ∈ seqKeys L :=
  List.mem_flatMap.mpr
    ⟨it, h, List.mem_cons_of_mem _ (List.mem_map.mpr ⟨(g, i), hf, rfl⟩)⟩

theorem seqFold_untouched (root : Path) (maxd : Option Nat) (follow : Bool)
    (wl : List Pat) :
    ∀ (L : List SeqItem) (m : SizeIndex) (k : Path),
      (∀ it ∈ L, k ≠ it.1 ∧ (∀ f ∈ it.2, k ≠ it.1 ++ [f.1])
        ∧ (it.1 = root ∨ it.1.dropLast ≠ k)) →
      getIdx (L.foldl (seqStep root maxd follow wl) m) k = getIdx m k := by
  intro L
  induction L with
  | nil => intro m k _; rfl
  | cons it0 rest ih =>
    intro m k hk
    obtain ⟨h1, h2, h3⟩ := hk it0 (List.mem_cons_self _ _)
    rw [List.foldl_cons, ih _ _ (fun it hit => hk it (List.mem_cons_of_mem _ hit))]
    exact seqStep_untouched _ _ _ _ _ _ _ h1 h2 h3

theorem seqFold_none (root : Path) (maxd : Option Nat) (follow : Bool)
    (wl : List Pat) :
    ∀ (L : List SeqItem) (m : SizeIndex) (k : Path),
      (∀ it ∈ L, k ≠ it.1 ∧ (∀ f ∈ it.2, k ≠ it.1 ++ [f.1])) →
      getIdx m k = none →
      getIdx (L.foldl (seqStep root maxd follow wl) m) k = none := by
  intro L
  induction L with
  | nil => intro m k _ h0; exact h0
  | cons it0 rest ih =>
    intro m k hk h0
    obtain ⟨h1, h2⟩ := hk it0 (List.mem_cons_self _ _)
    rw [List.foldl_cons]
    exact ih _ _ (fun it hit => hk it (List.mem_cons_of_mem _ hit))
      (seqStep_none _ _ _ _ _ _ _ h0 h1 h2)

/-- Master characterisation of the sequential loop at directory keys,
relative to an arbitrary starting index: a non-skipped directory ends
at its own file total (its final assignment, later parent-adds never
hitting it); a skipped directory is never written. -/
theorem seqFold_dir_char (root : Path) (maxd : Option Nat) (follow : Bool)
    (wl : List Pat) :
    ∀ (L : List SeqItem) (m : SizeIndex) (it : SeqItem),
      (seqKeys L).Nodup → noLaterParentHits root L = true →
      itemsOK root L = true → it ∈ L →
      ((skipB root maxd wl it.1 = true → getIdx m it.1 = none →
          getIdx (L.foldl (seqStep root maxd follow wl) m) it.1 = none)
       ∧ (skipB root maxd wl it.1 = false →
          getIdx (L.foldl (seqStep root maxd follow wl) m) it.1
            = some (okFileSum follow it.2))) := by
  intro L
  induction L with
  | nil => intro m it _ _ _ hmem; simp at hmem
  | cons it0 rest ih =>
    intro m it hKeys hPar hItems hmem
    have hKapp : ((it0.1 :: it0.2.map (fun f => it0.1 ++ [f.1]))
        ++ seqKeys rest).Nodup := by
      simpa [seqKeys, List.flatMap_cons] using hKeys
    obtain ⟨hKhead, hKrest, hKdisj⟩ := List.nodup_append.mp hKapp
    simp only [noLaterParentHits, Bool.and_eq_true, List.all_eq_true] at hPar
    simp only [itemsOK, List.all_cons, Bool.and_eq_true] at hItems
    have hItems' : itemsOK root rest = true := by
      simp only [itemsOK, List.all_eq_true]
      have := hItems.2
      simp only [List.all_eq_true] at this
      exact this
    rcases List.mem_cons.mp hmem with heq | hmem'
    · subst heq
      constructor
      · intro hs h0
        rw [List.foldl_cons, seqStep_skip _ _ _ _ _ _ hs]
        refine seqFold_none _ _ _ _ _ _ _ ?_ h0
        intro jt hjt
        have hd := hKdisj (List.mem_cons_self _ _)
        constructor
        · exact fun hh => hd (hh ▸ mem_seqKeys_dir hjt)
        · intro f hf hh
          exact hd (hh ▸ mem_seqKeys_file hjt hf)
      · intro hs
        rw [List.foldl_cons]
        have hroot : it.1 = root ∨ it.1 ≠ [] := by
          rcases Bool.or_eq_true _ _ |>.mp hItems.1 with h | h
          · exact Or.inl (of_decide_eq_true h)
          · exact Or.inr (of_decide_eq_true h)
        rw [seqFold_untouched _ _ _ _ _ _ _ ?_]
        · exact seqStep_dir _ _ _ _ _ _ hs hroot
        · intro jt hjt
          have hd := hKdisj (List.mem_cons_self _ _)
          refine ⟨fun hh => hd (hh ▸ mem_seqKeys_dir hjt), ?_, ?_⟩
          · intro f hf hh
            exact hd (hh ▸ mem_seqKeys_file hjt hf)
          · rcases Bool.or_eq_true _ _ |>.mp (hPar.1 jt hjt) with h | h
            · exact Or.inl (of_decide_eq_true h)
            · exact Or.inr (of_decide_eq_true (Bool.and_eq_true _ _ |>.mp h).1)
    · have hfwd := ih (seqStep root maxd follow wl m it0) it hKrest hPar.2
        hItems' hmem'
      constructor
      · intro hs h0
        rw [List.foldl_cons]
        refine hfwd.1 hs ?_
        refine seqStep_none _ _ _ _ _ _ _ h0 ?_ ?_
        · intro hh
          exact hKdisj (List.mem_cons_self _ _) (hh ▸ mem_seqKeys_dir hmem')
        · intro f hf hh
          exact hKdisj (List.mem_cons.mpr (Or.inr (List.mem_map.mpr ⟨f, hf, rfl⟩)))
            (hh ▸ mem_seqKeys_dir hmem')
      · intro hs
        rw [List.foldl_cons]
        exact hfwd.2 hs

/-- Master characterisation of the sequential loop at file keys: a file
of a non-skipped directory ends at its probe result (absent on probe
failure), a file of a skipped directory is never written. -/
theorem seqFold_file_char (root : Path) (maxd : Option Nat) (follow : Bool)
    (wl : List Pat) :
    ∀ (L : List SeqItem) (m : SizeIndex) (it : SeqItem) (g : String) (i : Info),
      (seqKeys L).Nodup → noLaterParentHits root L = true →
      it ∈ L → (g, i) ∈ it.2 → getIdx m (it.1 ++ [g]) = none →
      getIdx (L.foldl (seqStep root maxd follow wl) m) (it.1 ++ [g])
        = (if skipB root maxd wl it.1 = true then none else fileSize follow i) := by
  intro L
  induction L with
  | nil => intro m it _ _ _ _ hmem; simp at hmem
  | cons it0 rest ih =>
    intro m it g i hKeys hPar hmem hf h0
    have hKapp : ((it0.1 :: it0.2.map (fun f => it0.1 ++ [f.1]))
        ++ seqKeys rest).Nodup := by
      simpa [seqKeys, List.flatMap_cons] using hKeys
    obtain ⟨hKhead, hKrest, hKdisj⟩ := List.nodup_append.mp hKapp
    simp only [noLaterParentHits, Bool.and_eq_true, List.all_eq_true] at hPar
    rcases List.mem_cons.mp hmem with heq | hmem'
    · subst heq
      by_cases hs : skipB root maxd wl it.1
      · rw [if_pos hs, List.foldl_cons, seqStep_skip _ _ _ _ _ _ hs]
        refine seqFold_none _ _ _ _ _ _ _ ?_ h0
        intro jt hjt
        have hd := hKdisj
          (List.mem_cons.mpr (Or.inr (List.mem_map.mpr ⟨(g, i), hf, rfl⟩)))
        constructor
        · exact fun hh => hd (hh ▸ mem_seqKeys_dir hjt)
        · intro f hff hh
          exact hd (hh ▸ mem_seqKeys_file hjt hff)
      · have hs' : skipB root maxd wl it.1 = false := Bool.eq_false_iff.mpr hs
        rw [if_neg hs, List.foldl_cons]
        have hnd : (it.2.map Prod.fst).Nodup := by
          simp only [List.nodup_cons] at hKhead
          have h2 := hKhead.2
          rw [show (fun f : String × Info => it.1 ++ [f.1])
              = (fun s => it.1 ++ [s]) ∘ Prod.fst from rfl, ← List.map_map] at h2
          exact h2.of_map
        rw [seqFold_untouched _ _ _ _ _ _ _ ?_]
        · rw [seqStep_file _ _ _ _ _ _ _ _ hs' hnd hf]
          cases hfs : fileSize follow i with
          | none => exact h0
          | some sz => rfl
        · intro jt hjt
          have hd := hKdisj
            (List.mem_cons.mpr (Or.inr (List.mem_map.mpr ⟨(g, i), hf, rfl⟩)))
          refine ⟨fun hh => hd (hh ▸ mem_seqKeys_dir hjt), ?_, ?_⟩
          · intro f hff hh
            exact hd (hh ▸ mem_seqKeys_file hjt hff)
          · rcases Bool.or_eq_true _ _ |>.mp (hPar.1 jt hjt) with h | h
            · exact Or.inl (of_decide_eq_true h)
            · have hall := (Bool.and_eq_true _ _ |>.mp h).2
              simp only [List.all_eq_true] at hall
              exact Or.inr (of_decide_eq_true (hall (g, i) hf))
    · rw [List.foldl_cons]
      refine ih _ it g i hKrest hPar.2 hmem' hf ?_
      refine seqStep_none _ _ _ _ _ _ _ h0 ?_ ?_
      · intro hh
        exact hKdisj (List.mem_cons_self _ _) (hh ▸ mem_seqKeys_file hmem' hf)
      · intro f hff hh
        exact hKdisj (List.mem_cons.mpr (Or.inr (List.mem_map.mpr ⟨f, hff, rfl⟩)))
          (hh ▸ mem_seqKeys_file hmem' hf)

mutual
theorem walkEntryRev_len (follow : Bool) (path : Path) (e : Entry) :
    ∀ it ∈ walkEntryRev follow path e, path.length < it.1.length := by
  intro it hit
  match e with
  | .file n i => simp [walkEntryRev] at hit
  | .dir n i cs =>
    rw [walkEntryRev] at hit
    by_cases hd : (!i.isLink || follow) = true
    · rw [if_pos hd] at hit
      rcases List.mem_append.mp hit with h | h
      · have := walkListRev_len follow (path ++ [n]) cs it h
        simp only [List.length_append, List.length_cons, List.length_nil] at this
        omega
      · simp only [List.mem_singleton] at h
        subst h
        simp
    · rw [if_neg hd] at hit
      simp at hit

theorem walkListRev_len (follow : Bool) (path : Path) (cs : EntryList) :
    ∀ it ∈ walkListRev follow path cs, path.length < it.1.length := by
  intro it hit
  match cs with
  | .nil => simp [walkListRev] at hit
  | .cons e rest =>
    rw [walkListRev] at hit
    rcases List.mem_append.mp hit with h | h
    · exact walkEntryRev_len follow path e it h
    · exact walkListRev_len follow path rest it h
end

theorem walkRev_len (follow : Bool) (root : Path) (tree : Entry) :
    ∀ it ∈ walkRev follow root tree, root.length ≤ it.1.length := by
  intro it hit
  match tree with
  | .file n i => simp [walkRev] at hit
  | .dir n i cs =>
    rw [walkRev] at hit
    rcases List.mem_append.mp hit with h | h
    · exact Nat.le_of_lt (walkListRev_len follow root cs it h)
    · simp only [List.mem_singleton] at h
      subst h
      exact Nat.le_refl _

/-- Directory-key characterisation of the whole sequential branch: the
stored size of a non-skipped enumerated directory is the sum of its own
successfully probed files — no own-block term and no subdirectory
contribution — and a skipped directory is absent. -/
theorem walkSeq_dir_char (tree : Entry) (root : Path) (maxd : Option Nat)
    (follow : Bool) (wl : List Pat) (it : SeqItem)
    (hKeys : (seqKeys (walkRev follow root tree)).Nodup)
    (hPar : noLaterParentHits root (walkRev follow root tree) = true)
    (hItems : itemsOK root (walkRev follow root tree) = true)
    (hmem : it ∈ walkRev follow root tree) :
    getIdx (walkSeq tree root maxd follow wl) it.1
      = if skipB root maxd wl it.1 = true then none
        else some (okFileSum follow it.2) := by
  have hchar := seqFold_dir_char root maxd follow wl (walkRev follow root tree)
    [(root, 0)] it hKeys hPar hItems hmem
  by_cases hs : skipB root maxd wl it.1
  · rw [if_pos hs]
    refine hchar.1 hs ?_
    have hne : root ≠ it.1 := by
      intro hh
      rw [← hh] at hs
      rw [skipB_root] at hs
      exact Bool.false_ne_true hs
    simp [getIdx, hne]
  · rw [if_neg hs]
    exact hchar.2 (Bool.eq_false_iff.mpr hs)

/-- File-key characterisation of the whole sequential branch: a file of
a non-skipped enumerated directory is stored exactly when its probe
succeeds, with its `st_blocks * 512` value; a probe failure or a
skipped directory leaves the key absent. -/
theorem walkSeq_file_char (tree : Entry) (root : Path) (maxd : Option Nat)
    (follow : Bool) (wl : List Pat) (it : SeqItem) (g : String) (i : Info)
    (hKeys : (seqKeys (walkRev follow root tree)).Nodup)
    (hPar : noLaterParentHits root (walkRev follow root tree) = true)
    (hmem : it ∈ walkRev follow root tree) (hf : (g, i) ∈ it.2) :
    getIdx (walkSeq tree root maxd follow wl) (it.1 ++ [g])
      = if skipB root maxd wl it.1 = true then none else fileSize follow i := by
  refine seqFold_file_char root maxd follow wl (walkRev follow root tree)
    [(root, 0)] it g i hKeys hPar hmem hf ?_
  have hne : root ≠ it.1 ++ [g] := by
    intro hh
    have hlen := congrArg List.length hh
    have := walkRev_len follow root tree it hmem
    simp only [List.length_append, List.length_cons, List.length_nil] at hlen
    omega
  simp [getIdx, hne]

theorem keys_addIdx (m : SizeIndex) (p : Path) (v : Nat) :
    (addIdx m p v).map Prod.fst = m.map Prod.fst := by
  induction m with
  | nil => rfl
  | cons kv rest ih =>
    by_cases hk : kv.1 = p <;> simp [addIdx, hk, ih]

theorem mem_keys_setIdx {m : SizeIndex} {p : Path} {v : Nat} {q : Path}
    (h : q ∈ (setIdx m p v).map Prod.fst) : q ∈ m.map Prod.fst ∨ q = p := by
  induction m with
  | nil => simpa [setIdx] using h
  | cons kv rest ih =>
    by_cases hk : kv.1 = p
    · rw [setIdx, if_pos hk] at h
      simp only [List.map_cons, List.mem_cons] at h ⊢
      rcases h with h | h
      · exact Or.inl (Or.inl h)
      · exact Or.inl (Or.inr h)
    · rw [setIdx, if_neg hk] at h
      simp only [List.map_cons, List.mem_cons] at h ⊢
      rcases h with h | h
      · exact Or.inl (Or.inl h)
      · rcases ih h with h' | h'
        · exact Or.inl (Or.inr h')
        · exact Or.inr h'

theorem nodup_keys_setIdx (m : SizeIndex) (p : Path) (v : Nat)
    (h : (m.map Prod.fst).Nodup) : ((setIdx m p v).map Prod.fst).Nodup := by
  induction m with
  | nil => simp [setIdx]
  | cons kv rest ih =>
    simp only [List.map_cons, List.nodup_cons] at h
    by_cases hk : kv.1 = p
    · rw [setIdx, if_pos hk]
      simp only [List.map_cons, List.nodup_cons]
      exact ⟨hk ▸ h.1, h.2⟩
    · rw [setIdx, if_neg hk]
      simp only [List.map_cons, List.nodup_cons]
      refine ⟨fun hmem => ?_, ih h.2⟩
      rcases mem_keys_setIdx hmem with h' | h'
      · exact h.1 h'
      · exact hk h'

theorem nodup_keys_seqFileFold (follow : Bool) (record : Bool) (dirpath : Path) :
    ∀ (files : List (String × Info)) (sizes : SizeIndex) (acc : Nat),
      (sizes.map Prod.fst).Nodup →
      (((files.foldl (seqFileStep follow record dirpath) (sizes, acc)).1).map
        Prod.fst).Nodup := by
  intro files
  induction files with
  | nil => intro sizes acc h; exact h
  | cons f fs ih =>
    intro sizes acc h
    cases hfs : fileSize follow f.2 with
    | none => simp only [List.foldl_cons, seqFileStep, hfs]; exact ih _ _ h
    | some sz =>
      simp only [List.foldl_cons, seqFileStep, hfs]
      cases record with
      | false => exact ih _ _ h
      | true => exact ih _ _ (nodup_keys_setIdx _ _ _ h)

theorem nodup_keys_seqStep (root : Path) (maxd : Option Nat) (follow : Bool)
    (wl : List Pat) (m : SizeIndex) (it : SeqItem)
    (h : (m.map Prod.fst).Nodup) :
    (((seqStep root maxd follow wl m it)).map Prod.fst).Nodup := by
  by_cases hs : skipB root maxd wl it.1
  · rw [seqStep_skip _ _ _ _ _ _ hs]; exact h
  · rw [seqStep_eq_not_skip _ _ _ _ _ _ (Bool.eq_false_iff.mpr hs)]
    have h2 := nodup_keys_setIdx
      ((it.2.foldl (seqFileStep follow true it.1) (m, 0)).1) it.1
      ((it.2.foldl (seqFileStep follow true it.1) (m, 0)).2)
      (nodup_keys_seqFileFold _ _ _ _ _ _ h)
    by_cases hr : it.1 ≠ root
    · rw [if_pos hr]
      by_cases hm : memIdx (setIdx (it.2.foldl (seqFileStep follow true it.1) (m, 0)).1
          it.1 (it.2.foldl (seqFileStep follow true it.1) (m, 0)).2) it.1.dropLast
      · rw [if_pos hm, keys_addIdx]; exact h2
      · rw [if_neg hm]; exact h2
    · rw [if_neg hr]; exact h2

theorem walkSeq_keys_nodup (tree : Entry) (root : Path) (maxd : Option Nat)
    (follow : Bool) (wl : List Pat) :
    ((walkSeq tree root maxd follow wl).map Prod.fst).Nodup := by
  have haux : ∀ (L : List SeqItem) (m : SizeIndex), (m.map Prod.fst).Nodup →
      (((L.foldl (seqStep root maxd follow wl) m)).map Prod.fst).Nodup := by
    intro L
    induction L with
    | nil => intro m h; exact h
    | cons it rest ih =>
      intro m h
      rw [List.foldl_cons]
      exact ih _ (nodup_keys_seqStep _ _ _ _ _ _ h)
  exact haux _ [(root, 0)] (by simp)

/-! ## Helper lemmas: the parallel walk -/

theorem chunksF_join {α : Type} :
    ∀ (fuel n : Nat) (l : List α), 0 < n → l.length ≤ fuel →
      (chunksF fuel n l).flatMap id = l := by
  intro fuel
  induction fuel with
  | zero =>
    intro n l hn hl
    have : l = [] := List.eq_nil_of_length_eq_zero (by omega)
    subst this
    rfl
  | succ f ih =>
    intro n l hn hl
    cases l with
    | nil => rfl
    | cons x xs =>
      rw [chunksF, List.flatMap_cons]
      have hdrop : ((x :: xs).drop n).length ≤ f := by
        rw [List.length_drop]
        simp only [List.length_cons] at hl ⊢
        omega
      rw [ih n _ hn hdrop]
      simp [List.take_append_drop]

theorem chunks_join {α : Type} (n : Nat) (l : List α) (hn : 0 < n) :
    (chunks n l).flatMap id = l :=
  chunksF_join l.length n l hn (Nat.le_refl _)

theorem batchProbe_ok_aux (follow : Bool) :
    ∀ (batch : List (Path × Info)) (res : List (Path × Nat)),
      (∀ pi ∈ batch, pi.2.ex = true ∧ (fileSize follow pi.2).isSome = true) →
      batch.foldl (probeStep follow) (some res)
        = some (res ++ batch.map (fun pi =>
            (pi.1, (fileSize follow pi.2).getD 0))) := by
  intro batch
  induction batch with
  | nil => intro res _; simp
  | cons pi rest ih =>
    intro res hok
    obtain ⟨hex, hsome⟩ := hok pi (List.mem_cons_self _ _)
    cases hfs : fileSize follow pi.2 with
    | none => rw [hfs] at hsome; simp at hsome
    | some sz =>
      rw [List.foldl_cons]
      have hstep : probeStep follow (some res) pi = some (res ++ [(pi.1, sz)]) := by
        simp [probeStep, hex, hfs]
      rw [hstep, ih _ (fun x hx => hok x (List.mem_cons_of_mem _ hx))]
      simp [hfs]

theorem batchProbe_ok (follow : Bool) (batch : List (Path × Info))
    (hok : ∀ pi ∈ batch, pi.2.ex = true ∧ (fileSize follow pi.2).isSome = true) :
    batchProbe follow batch
      = some (batch.map (fun pi => (pi.1, (fileSize follow pi.2).getD 0))) := by
  have := batchProbe_ok_aux follow batch [] hok
  simpa [batchProbe] using this

theorem updIdx_append (m : SizeIndex) (r1 r2 : List (Path × Nat)) :
    updIdx m (r1 ++ r2) = updIdx (updIdx m r1) r2 :=
  List.foldl_append _ _ _ _

theorem getIdx_updIdx_not_mem :
    ∀ (res : List (Path × Nat)) (m : SizeIndex) (k : Path),
      k ∉ res.map Prod.fst → getIdx (updIdx m res) k = getIdx m k := by
  intro res
  induction res with
  | nil => intro m k _; rfl
  | cons r rest ih =>
    intro m k hk
    simp only [List.map_cons, List.mem_cons] at hk
    push_neg at hk
    rw [updIdx, List.foldl_cons]
    have := ih (setIdx m r.1 r.2) k hk.2
    rw [updIdx] at this
    rw [this, getIdx_setIdx_other _ _ _ _ (fun hh => hk.1 hh.symm)]

theorem getIdx_updIdx_mem :
    ∀ (res : List (Path × Nat)) (m : SizeIndex) (k : Path) (v : Nat),
      (res.map Prod.fst).Nodup → (k, v) ∈ res →
      getIdx (updIdx m res) k = some v := by
  intro res
  induction res with
  | nil => intro m k v _ hmem; simp at hmem
  | cons r rest ih =>
    intro m k v hnd hmem
    simp only [List.map_cons, List.nodup_cons] at hnd
    rw [updIdx, List.foldl_cons]
    rcases List.mem_cons.mp hmem with heq | hmem'
    · cases heq
      have := getIdx_updIdx_not_mem rest (setIdx m k v) k hnd.1
      rw [updIdx] at this
      rw [this, getIdx_setIdx_same]
    · have := ih (setIdx m r.1 r.2) k v hnd.2 hmem'
      rw [updIdx] at this
      rw [this]

theorem probe_fold_ok (follow : Bool) :
    ∀ (batches : List (List (Path × Info))) (m : SizeIndex),
      (∀ b ∈ batches, ∀ pi ∈ b, pi.2.ex = true
        ∧ (fileSize follow pi.2).isSome = true) →
      batches.foldl (fun s b =>
        match batchProbe follow b with
        | some res => updIdx s res
        | none => s) m
        = updIdx m ((batches.flatMap id).map (fun pi =>
            (pi.1, (fileSize follow pi.2).getD 0))) := by
  intro batches
  induction batches with
  | nil => intro m _; rfl
  | cons b bs ih =>
    intro m hok
    rw [List.foldl_cons, List.flatMap_cons, List.map_append, updIdx_append]
    rw [batchProbe_ok follow b (hok b (List.mem_cons_self _ _))]
    exact ih _ (fun b' hb' => hok b' (List.mem_cons_of_mem _ hb'))

theorem aggStep_fst (root : Path) (acc : SizeIndex × SizeIndex)
    (item : Path × EntryList) :
    (aggStep root acc item).1 = setIdx acc.1 item.1 (childSum acc.1 item.1 item.2) := by
  simp only [aggStep]
  by_cases hr : item.1 ≠ root
  · rw [if_pos hr]
    by_cases hm : memIdx (setIdx acc.2 item.1 (childSum acc.1 item.1 item.2))
        item.1.dropLast
    · rw [if_pos hm]
    · rw [if_neg hm]
  · rw [if_neg hr]

theorem agg_fold_untouched (root : Path) :
    ∀ (items : List (Path × EntryList)) (acc : SizeIndex × SizeIndex) (k : Path),
      k ∉ items.map Prod.fst →
      getIdx ((items.foldl (aggStep root) acc).1) k = getIdx acc.1 k := by
  intro items
  induction items with
  | nil => intro acc k _; rfl
  | cons item rest ih =>
    intro acc k hk
    simp only [List.map_cons, List.mem_cons] at hk
    push_neg at hk
    rw [List.foldl_cons, ih _ _ hk.2, aggStep_fst,
      getIdx_setIdx_other _ _ _ _ (fun hh => hk.1 hh.symm)]

theorem overDepth_mono (maxd : Option Nat) (a b : Nat) (hab : a ≤ b)
    (h : overDepth maxd a = true) : overDepth maxd b = true := by
  cases maxd with
  | none => simp [overDepth] at h
  | some d =>
    simp only [overDepth, decide_eq_true_eq] at h ⊢
    omega

/-- The pruning condition of the first pass with an empty whitelist is
the shared skip condition. -/
theorem collect_prune_eq_skip (root : Path) (maxd : Option Nat) (p : Path) :
    (!(matchesAny [] (relPath root p))
      && overDepth maxd (p.length - root.length)) = skipB root maxd [] p := rfl

mutual
theorem collectEntry_corr (root : Path) (maxd : Option Nat) (follow : Bool)
    (path : Path) (e : Entry) :
    ∀ p cs', (p, cs') ∈ collectEntry root maxd follow [] path e →
      skipB root maxd [] p = false
        ∧ (p, filesOf cs') ∈ walkEntryRev follow path e := by
  intro p cs' hmem
  match e with
  | .file n i => simp [collectEntry] at hmem
  | .dir n i cs =>
    rw [collectEntry] at hmem
    by_cases hd : (!i.isLink || follow) = true
    · rw [if_pos hd] at hmem
      by_cases hp : skipB root maxd [] (path ++ [n]) = true
      · rw [if_pos (by rw [collect_prune_eq_skip]; exact hp)] at hmem
        simp at hmem
      · rw [if_neg (by rw [collect_prune_eq_skip]; simp [hp])] at hmem
        rcases List.mem_cons.mp hmem with heq | hmem'
        · obtain ⟨h1, h2⟩ := Prod.mk.injEq .. ▸ heq
          cases heq
          refine ⟨Bool.eq_false_iff.mpr hp, ?_⟩
          rw [walkEntryRev, if_pos hd]
          exact List.mem_append.mpr (Or.inr (List.mem_singleton.mpr rfl))
        · obtain ⟨hs, hw⟩ := collectList_corr root maxd follow (path ++ [n]) cs
            p cs' hmem'
          refine ⟨hs, ?_⟩
          rw [walkEntryRev, if_pos hd]
          exact List.mem_append.mpr (Or.inl hw)
    · rw [if_neg hd] at hmem
      simp at hmem

theorem collectList_corr (root : Path) (maxd : Option Nat) (follow : Bool)
    (path : Path) (cs : EntryList) :
    ∀ p cs', (p, cs') ∈ collectList root maxd follow [] path cs →
      skipB root maxd [] p = false
        ∧ (p, filesOf cs') ∈ walkListRev follow path cs := by
  intro p cs' hmem
  match cs with
  | .nil => simp [collectList] at hmem
  | .cons e rest =>
    rw [collectList] at hmem
    rw [walkListRev]
    rcases List.mem_append.mp hmem with h | h
    · obtain ⟨hs, hw⟩ := collectEntry_corr root maxd follow path e p cs' h
      exact ⟨hs, List.mem_append.mpr (Or.inl hw)⟩
    · obtain ⟨hs, hw⟩ := collectList_corr root maxd follow path rest p cs' h
      exact ⟨hs, List.mem_append.mpr (Or.inr hw)⟩
end

mutual
theorem walkEntryRev_corr (root : Path) (maxd : Option Nat) (follow : Bool)
    (path : Path) (e : Entry) :
    ∀ p fs, (p, fs) ∈ walkEntryRev follow path e →
      skipB root maxd [] p = false →
      ∃ cs', fs = filesOf cs'
        ∧ (p, cs') ∈ collectEntry root maxd follow [] path e := by
  intro p fs hmem hskip
  match e with
  | .file n i => simp [walkEntryRev] at hmem
  | .dir n i cs =>
    rw [walkEntryRev] at hmem
    by_cases hd : (!i.isLink || follow) = true
    · rw [if_pos hd] at hmem
      by_cases hp : skipB root maxd [] (path ++ [n]) = true
      · exfalso
        rcases List.mem_append.mp hmem with h | h
        · have hlen : (path ++ [n]).length < p.length :=
            walkListRev_len follow (path ++ [n]) cs _ h
          rw [skipB_nil_wl] at hp hskip
          have := overDepth_mono maxd ((path ++ [n]).length - root.length)
            (p.length - root.length) (by omega) hp
          rw [this] at hskip
          exact Bool.true_eq_false ▸ hskip
        · simp only [List.mem_singleton] at h
          cases h
          rw [hskip] at hp
          exact Bool.false_ne_true hp
      · rcases List.mem_append.mp hmem with h | h
        · obtain ⟨cs', hfs, hc⟩ := walkListRev_corr root maxd follow (path ++ [n])
            cs p fs h hskip
          refine ⟨cs', hfs, ?_⟩
          rw [collectEntry, if_pos hd,
            if_neg (by rw [collect_prune_eq_skip]; simp [hp])]
          exact List.mem_cons_of_mem _ hc
        · simp only [List.mem_singleton] at h
          cases h
          refine ⟨cs, rfl, ?_⟩
          rw [collectEntry, if_pos hd,
            if_neg (by rw [collect_prune_eq_skip]; simp [hp])]
          exact List.mem_cons_self _ _
    · rw [if_neg hd] at hmem
      simp at hmem

theorem walkListRev_corr (root : Path) (maxd : Option Nat) (follow : Bool)
    (path : Path) (cs : EntryList) :
    ∀ p fs, (p, fs) ∈ walkListRev follow path cs →
      skipB root maxd [] p = false →
      ∃ cs', fs = filesOf cs'
        ∧ (p, cs') ∈ collectList root maxd follow [] path cs := by
  intro p fs hmem hskip
  match cs with
  | .nil => simp [walkListRev] at hmem
  | .cons e rest =>
    rw [walkListRev] at hmem
    rw [collectList]
    rcases List.mem_append.mp hmem with h | h
    · obtain ⟨cs', hfs, hc⟩ := walkEntryRev_corr root maxd follow path e p fs h hskip
      exact ⟨cs', hfs, List.mem_append.mpr (Or.inl hc)⟩
    · obtain ⟨cs', hfs, hc⟩ := walkListRev_corr root maxd follow path rest p fs h hskip
      exact ⟨cs', hfs, List.mem_append.mpr (Or.inr hc)⟩
end

theorem collectDirs_root_cond (root : Path) (maxd : Option Nat) :
    (!(matchesAny [] (relPath root root))
      && overDepth maxd (root.length - root.length)) = false := by
  cases maxd <;> simp [matchesAny, overDepth]

theorem collectDirs_corr_fwd (tree : Entry) (root : Path) (maxd : Option Nat)
    (follow : Bool) :
    ∀ p cs', (p, cs') ∈ collectDirs tree root maxd follow [] →
      skipB root maxd [] p = false
        ∧ (p, filesOf cs') ∈ walkRev follow root tree := by
  intro p cs' hmem
  cases tree with
  | file n i => simp [collectDirs] at hmem
  | dir n i cs =>
    rw [collectDirs, if_neg (by rw [collectDirs_root_cond]; simp)] at hmem
    rw [walkRev]
    rcases List.mem_cons.mp hmem with heq | hmem'
    · cases heq
      exact ⟨skipB_root _ _ _, List.mem_append.mpr (Or.inr (List.mem_singleton.mpr rfl))⟩
    · obtain ⟨hs, hw⟩ := collectList_corr root maxd follow root cs p cs' hmem'
      exact ⟨hs, List.mem_append.mpr (Or.inl hw)⟩

theorem collectDirs_corr_bwd (tree : Entry) (root : Path) (maxd : Option Nat)
    (follow : Bool) :
    ∀ p fs, (p, fs) ∈ walkRev follow root tree →
      skipB root maxd [] p = false →
      ∃ cs', fs = filesOf cs'
        ∧ (p, cs') ∈ collectDirs tree root maxd follow [] := by
  intro p fs hmem hskip
  cases tree with
  | file n i => simp [walkRev] at hmem
  | dir n i cs =>
    rw [walkRev] at hmem
    rw [collectDirs, if_neg (by rw [collectDirs_root_cond]; simp)]
    rcases List.mem_append.mp hmem with h | h
    · obtain ⟨cs', hfs, hc⟩ := walkListRev_corr root maxd follow root cs p fs h hskip
      exact ⟨cs', hfs, List.mem_cons_of_mem _ hc⟩
    · simp only [List.mem_singleton] at h
      cases h
      exact ⟨cs, rfl, List.mem_cons_self _ _⟩

theorem mem_collectFiles {dirs : List (Path × EntryList)} {q : Path} {j : Info} :
    (q, j) ∈ collectFiles dirs
      ↔ ∃ p cs', (p, cs') ∈ dirs
          ∧ ∃ g, (g, j) ∈ filesOf cs' ∧ q = p ++ [g] := by
  simp only [collectFiles, List.mem_flatMap, List.mem_map]
  constructor
  · rintro ⟨it, hit, f, hf, heq⟩
    obtain ⟨h1, h2⟩ := Prod.mk.injEq .. ▸ heq
    exact ⟨it.1, it.2, hit, f.1, h2 ▸ hf, h1.symm⟩
  · rintro ⟨p, cs', hdir, g, hg, hq⟩
    exact ⟨(p, cs'), hdir, (g, j), hg, by rw [hq]⟩

theorem walkPar_file_ok (tree : Entry) (root : Path) (maxd : Option Nat)
    (follow : Bool) (q : Path) (j : Info)
    (hmem : (q, j) ∈ collectFiles (collectDirs tree root maxd follow []))
    (hOkF : ∀ pi ∈ collectFiles (collectDirs tree root maxd follow []),
      pi.2.ex = true ∧ (fileSize follow pi.2).isSome = true)
    (hPN : ((collectFiles (collectDirs tree root maxd follow [])).map
      Prod.fst).Nodup)
    (hND : q ∉ (collectDirs tree root maxd follow []).map Prod.fst) :
    getIdx (walkPar tree root maxd follow []) q = fileSize follow j := by
  rw [walkPar]
  have hbs : 0 < (if (collectFiles (collectDirs tree root maxd follow
      [])).length > 1000 then 500 else 100) := by
    split <;> omega
  have hjoin := chunks_join _ (collectFiles (collectDirs tree root maxd follow
    [])) hbs
  have hbatch : ∀ b ∈ chunks (if (collectFiles (collectDirs tree root maxd
      follow [])).length > 1000 then 500 else 100)
      (collectFiles (collectDirs tree root maxd follow [])),
      ∀ pi ∈ b, pi.2.ex = true ∧ (fileSize follow pi.2).isSome = true := by
    intro b hb pi hpi
    refine hOkF pi ?_
    rw [← hjoin]
    exact List.mem_flatMap.mpr ⟨b, hb, hpi⟩
  rw [agg_fold_untouched root _ _ q
    (by simpa only [List.map_reverse, List.mem_reverse] using hND)]
  rw [probe_fold_ok follow _ _ hbatch, hjoin]
  have hkeys : ((collectFiles (collectDirs tree root maxd follow [])).map
      (fun pi => (pi.1, (fileSize follow pi.2).getD 0))).map Prod.fst
      = (collectFiles (collectDirs tree root maxd follow [])).map Prod.fst := by
    rw [List.map_map]
    rfl
  rw [getIdx_updIdx_mem _ _ q ((fileSize follow j).getD 0)
    (by rw [hkeys]; exact hPN)
    (List.mem_map.mpr ⟨(q, j), hmem, rfl⟩)]
  obtain ⟨_, hsome⟩ := hOkF (q, j) hmem
  cases hfs : fileSize follow j with
  | none => rw [hfs] at hsome; simp at hsome
  | some sz => simp [hfs]

theorem walkPar_file_absent (tree : Entry) (root : Path) (maxd : Option Nat)
    (follow : Bool) (q : Path)
    (hOkF : ∀ pi ∈ collectFiles (collectDirs tree root maxd follow []),
      pi.2.ex = true ∧ (fileSize follow pi.2).isSome = true)
    (hqf : q ∉ (collectFiles (collectDirs tree root maxd follow [])).map
      Prod.fst)
    (hqd : q ∉ (collectDirs tree root maxd follow []).map Prod.fst)
    (hqr : root ≠ q) :
    getIdx (walkPar tree root maxd follow []) q = none := by
  rw [walkPar]
  have hbs : 0 < (if (collectFiles (collectDirs tree root maxd follow
      [])).length > 1000 then 500 else 100) := by
    split <;> omega
  have hjoin := chunks_join _ (collectFiles (collectDirs tree root maxd follow
    [])) hbs
  have hbatch : ∀ b ∈ chunks (if (collectFiles (collectDirs tree root maxd
      follow [])).length > 1000 then 500 else 100)
      (collectFiles (collectDirs tree root maxd follow [])),
      ∀ pi ∈ b, pi.2.ex = true ∧ (fileSize follow pi.2).isSome = true := by
    intro b hb pi hpi
    refine hOkF pi ?_
    rw [← hjoin]
    exact List.mem_flatMap.mpr ⟨b, hb, hpi⟩
  rw [agg_fold_untouched root _ _ q
    (by simpa only [List.map_reverse, List.mem_reverse] using hqd)]
  rw [probe_fold_ok follow _ _ hbatch, hjoin]
  have hkeys : ((collectFiles (collectDirs tree root maxd follow [])).map
      (fun pi => (pi.1, (fileSize follow pi.2).getD 0))).map Prod.fst
      = (collectFiles (collectDirs tree root maxd follow [])).map Prod.fst := by
    rw [List.map_map]
    rfl
  rw [getIdx_updIdx_not_mem _ _ q (by rw [hkeys]; exact hqf)]
  simp [getIdx, hqr]

/-! ## Claim theorems -/

/-- C1: the claimed invariant `size(D) = ownBlocks(D) + sum of stored
direct-child sizes` is violated by `walk_directory` in both modes on
the snapshot `r/d/f` (all stats succeed, `d` owns 8 blocks and holds a
one-block file): no branch of the walk ever adds a directory's own
block allocation, and the sequential branch additionally drops
subdirectory totals from parents, so the checker for the claimed
invariant rejects the returned index. -/
theorem c1_invariant_fails_on_code :
    c1Check ["r"] snapNested
        (walk_directory snapNested ["r"] none false false [] 0 false false) = false
    ∧ c1Check ["r"] snapNested
        (walk_directory snapNested ["r"] none false false [] 0 false true) = false
    ∧ getIdx (walk_directory snapNested ["r"] none false false [] 0 false false)
        ["r", "d"] = some 512 := by
  refine ⟨by decide, by decide, by decide⟩

/-- C2: counterexample to "parallel and sequential return the same
mapping".  On the snapshot `r/d/f` with identical arguments the
sequential walk stores 0 for the root (its own final assignment
overwrites the accumulated child total) while the parallel walk stores
512, so the two indices differ at the root key. -/
theorem c2_seq_par_differ_at_root :
    getIdx (walk_directory snapNested ["r"] none false false [] 0 false false) ["r"]
      = some 0
    ∧ getIdx (walk_directory snapNested ["r"] none false false [] 0 false true) ["r"]
      = some 512 := by
  refine ⟨by decide, by decide⟩

/-- C3: evaluation of `should_follow_link` at the failing input.  The
link's own `lstat` inode is (1, 10) and its target's inode is (1, 20);
with the target already in `visited_inodes` the claim requires
`TraversalError`, but the function returns Follow and records the
link's own (device, inode) as read from `os.lstat`, not the
target's. -/
theorem c3_should_follow_link_records_lstat_inode :
    should_follow_link (some ⟨1, 10, 0⟩) true (some ⟨1, 20, 0⟩) (some ⟨1, 99, 0⟩)
        true false [(1, 20)]
      = .ok (true, [(1, 10), (1, 20)]) := by
  simp [should_follow_link]

/-- C4: with `one_filesystem = true` on a snapshot whose subdirectory
`m` sits on a different device than the root, both walk modes still
descend into `m`: its child `g` appears in the returned index, so the
device boundary is not honoured (`root_dev` is computed and never
consulted). -/
theorem c4_one_filesystem_descends_other_device :
    getIdx (walk_directory snapCrossDev ["r"] none false true [] 0 false false)
        ["r", "m", "g"] = some 512
    ∧ getIdx (walk_directory snapCrossDev ["r"] none false true [] 0 false true)
        ["r", "m", "g"] = some 512 := by
  refine ⟨by decide, by decide⟩

/-- C5: counterexample.  In parallel mode the whitelisted directory at
depth 3 (root-relative path `a/b/c`, matched by the whitelist) is
missing from the final filtered output when `max_depth = 1`: the
first-pass pruning clears `dirnames` at its unwhitelisted ancestor
`a/b`, so the whitelisted path is never enumerated. -/
theorem c5_parallel_prunes_whitelisted_path :
    matchesAny wlDeep (relPath ["r"] ["r", "a", "b", "c"]) = true
    ∧ getIdx (filter_paths
        (walk_directory snapDeepWl ["r"] (some 1) false false wlDeep 0 false true)
        ["r"] 0 none wlDeep [] false) ["r", "a", "b", "c"] = none := by
  refine ⟨by decide, by decide⟩

/-- C6: counterexample.  File `a` passes the `os.path.exists` pre-check
but its stat probe then fails (the mid-scan race the spec's
`AccessError` covers); in parallel mode the raised error discards the
results of the whole batch, so the healthy file `b` — whose own probe
succeeds, as the sequential mode shows — is also omitted from the
returned index, against "all other paths are still probed and
recorded". -/
theorem c6_parallel_batch_discards_healthy_sibling :
    getIdx (walk_directory snapRace ["r"] none false false [] 0 false true)
        ["r", "b"] = none
    ∧ getIdx (walk_directory snapRace ["r"] none false false [] 0 false false)
        ["r", "b"] = some 512 := by
  refine ⟨by decide, by decide⟩

/-- C9: counterexample.  At 1048575 bytes the true KB mantissa
1023.999… lies in [1, 1024), so the claimed rule ("largest unit such
that the mantissa lies in [1, 1024)") renders `1024.00 KB`; the code
rounds the mantissa first, sees 1024.00, and bumps to `1.00 MB`. -/
theorem c9_rounding_bump_leaves_claimed_unit :
    format_size 1048575 = some ("1.00 MB")
    ∧ spec_format_size 1048575 = some ("1024.00 KB") := by
  refine ⟨by decide, by decide⟩

/-- C7: `match_pattern` semantics.  A regex pattern matches exactly
when its compiled `search` finds a match in the path; a glob starting
with a separator matches exactly when `fnmatch` accepts the whole
root-relative path; a non-anchored glob matches exactly when it
`fnmatch`-matches the whole relative path or some path-segment suffix
of it, i.e. the part after some separator. -/
theorem c7_match_pattern_semantics (path p : String) (f : String → Bool) :
    (match_pattern path (Pat.regex f) false = f path)
    ∧ (startsWithSlash p = true →
      match_pattern path (Pat.glob p) false = fnmatch path p)
    ∧ (startsWithSlash p = false →
      (match_pattern path (Pat.glob p) false = true ↔
        fnmatch path p = true
          ∨ ∃ x y, path.data = x ++ '/' :: y ∧ fnmatchL p.data y = true)) := by
  refine ⟨rfl, fun h => by simp [match_pattern, h], fun h => ?_⟩
  have hmp : match_pattern path (Pat.glob p) false
      = (fnmatch path p || fnmatch path ("*/" ++ p)) := by
    simp [match_pattern, h]
  rw [hmp]
  simp only [Bool.or_eq_true]
  constructor
  · rintro (hm | hm)
    · exact Or.inl hm
    · refine Or.inr ?_
      have : fnmatchL (("*/" ++ p).data) path.data = true := hm
      rw [String.data_append] at this
      have hstar : fnmatchL ('*' :: '/' :: p.data) path.data = true := this
      obtain ⟨t, hts, ht⟩ := (fnmatchL_star_iff _ _).mp hstar
      obtain ⟨y, hy, hmy⟩ := (fnmatchL_slash _ _).mp ht
      obtain ⟨x, hx⟩ := hts
      exact ⟨x, y, by rw [← hx, hy], hmy⟩
  · rintro (hm | ⟨x, y, hxy, hmy⟩)
    · exact Or.inl hm
    · refine Or.inr ?_
      show fnmatchL (("*/" ++ p).data) path.data = true
      rw [String.data_append]
      refine (fnmatchL_star_iff _ _).mpr ⟨'/' :: y, ⟨x, hxy.symm⟩, ?_⟩
      exact (fnmatchL_slash _ _).mpr ⟨y, rfl, hmy⟩

/-- C7 witness: the non-anchored glob `b` matches the relative path
`a/b` through its path-segment suffix `b`. -/
theorem c7_witness : match_pattern ("a/b") (Pat.glob ("b")) false = true :=
  ((c7_match_pattern_semantics ("a/b") ("b") (fun _ => false)).2.2 (by decide)).mpr
    (Or.inr ⟨['a'], ['b'], by decide, by simp [fnmatchL]⟩)

/-- C8: the size floor of `filter_paths` is inclusive.  With no
blacklist, no cut, and a whitelist that (when present) matches the
path, a key of the input index survives exactly when its size is at
least `min_size`, or `all_files` is set, or it is whitelisted; the
boundary `size = min_size` is retained. -/
theorem c8_size_floor_inclusive (sizes : SizeIndex) (root : Path)
    (min_size : Nat) (wl : List Pat) (all_files : Bool) (p : Path) (v : Nat)
    (hN : (sizes.map Prod.fst).Nodup) (hv : getIdx sizes p = some v)
    (hm : wl ≠ [] → matchesAny wl (relPath root p) = true) :
    getIdx (filter_paths sizes root min_size none wl [] all_files) p =
      if min_size ≤ v ∨ all_files = true ∨ matchesAny wl (relPath root p) = true
      then some v else none := by
  rw [filter_paths_char sizes root min_size none wl [] all_files p v hN hv]
  by_cases hwe : wl.isEmpty
  · have hwl : wl = [] := List.isEmpty_iff.mp hwe
    subst hwl
    simp only [hwe, List.isEmpty_nil, Bool.not_true, Bool.false_and, Bool.and_true,
      if_false, Bool.if_false_left, matchesAny, List.any_nil]
    by_cases hle : min_size ≤ v <;> cases all_files <;>
      simp_all [Nat.not_le]
  · have hne : wl ≠ [] := fun hh => by subst hh; exact hwe rfl
    have hmm := hm hne
    simp only [hwe, hmm, Bool.not_false, Bool.and_true, if_true, Bool.true_and,
      Bool.or_true, Bool.true_or]
    simp [hmm]

/-- C8 witness: with `min_size = 1048576` a file of exactly 1048576
bytes is retained. -/
theorem c8_witness :
    getIdx (filter_paths [(["r", "f"], 1048576)] ["r"] 1048576 none [] [] false)
      ["r", "f"] = some 1048576 := by
  rw [c8_size_floor_inclusive [(["r", "f"], 1048576)] ["r"] 1048576 [] false
    ["r", "f"] 1048576 (by decide) (by decide) (fun h => absurd rfl h)]
  simp

/-- C10: `filter_paths` is a restriction of its input — every key of
the output is a key of the input with the same value — and with no
whitelist, no blacklist, `min_size = 0` and no cut it is the
identity. -/
theorem c10_filter_restriction_identity (sizes : SizeIndex) (root : Path)
    (min_size : Nat) (cut_size : Option Nat) (wl bl : List Pat)
    (all_files : Bool) (p : Path) (v : Nat)
    (hN : (sizes.map Prod.fst).Nodup) :
    (getIdx (filter_paths sizes root min_size cut_size wl bl all_files) p = some v →
      getIdx sizes p = some v)
    ∧ filter_paths sizes root 0 none [] [] all_files = sizes := by
  constructor
  · intro h
    have hmem := getIdx_mem h
    have hsub := filter_paths_sublist sizes root min_size cut_size wl bl all_files
    exact getIdx_of_mem_nodup (hsub.mem hmem) hN
  · simp only [filter_paths]
    rw [foldl_keep_append]
    simp only [List.nil_append]
    have : ∀ kv : Path × Nat, kv ∈ sizes →
        ((if !([] : List Pat).isEmpty then decide (kv.1 ∈ ([] : List Path))
          else if !([] : List Pat).isEmpty then !(matchesAny [] (relPath root kv.1))
          else true)
          && !(!all_files && !(decide (kv.1 ∈ ([] : List Path))) && decide (kv.2 < 0)))
          = true := by
      intro kv _
      simp
    simp

/-- C5 (amended): in sequential mode the whitelist override works: any
enumerated directory whose root-relative path matches a whitelist
pattern is recorded by `walk_directory` and survives `filter_paths`
regardless of `max_depth` (and of the blacklist, the size floor and the
cut), with its stored file total. -/
theorem c5_amended_sequential_whitelist_override (tree : Entry) (root : Path)
    (maxd : Option Nat) (follow oneFs : Bool) (wl bl : List Pat)
    (minSize : Nat) (cutSize : Option Nat) (allFiles : Bool) (it : SeqItem)
    (hKeys : (seqKeys (walkRev follow root tree)).Nodup)
    (hPar : noLaterParentHits root (walkRev follow root tree) = true)
    (hItems : itemsOK root (walkRev follow root tree) = true)
    (hmem : it ∈ walkRev follow root tree)
    (hmatch : matchesAny wl (relPath root it.1) = true) :
    getIdx (filter_paths
        (walk_directory tree root maxd follow oneFs wl minSize allFiles false)
        root minSize cutSize wl bl allFiles) it.1
      = some (okFileSum follow it.2) := by
  have hwd : walk_directory tree root maxd follow oneFs wl minSize allFiles false
      = walkSeq tree root maxd follow wl := by
    simp [walk_directory]
  rw [hwd]
  have hskip : skipB root maxd wl it.1 = false := by simp [skipB, hmatch]
  have hval : getIdx (walkSeq tree root maxd follow wl) it.1
      = some (okFileSum follow it.2) := by
    rw [walkSeq_dir_char tree root maxd follow wl it hKeys hPar hItems hmem]
    rw [if_neg (by simp [hskip])]
  rw [filter_paths_char _ root minSize cutSize wl bl allFiles it.1 _
    (walkSeq_keys_nodup tree root maxd follow wl) hval]
  have hwe : wl.isEmpty = false := by
    cases wl with
    | nil => simp [matchesAny] at hmatch
    | cons p ps => rfl
  cases cutSize <;> simp [hwe, hmatch]

/-- C5 witness: on the snapshot `r/a/b/c/f` with `max_depth = 1` and
the whitelist matching `a/b/c`, the sequential walk records the
whitelisted depth-3 directory and the filter keeps it. -/
theorem c5_amended_witness :
    getIdx (filter_paths
        (walk_directory snapDeepWl ["r"] (some 1) false false wlDeep 0 false false)
        ["r"] 0 none wlDeep [] false) ["r", "a", "b", "c"] = some 512 := by
  have h := c5_amended_sequential_whitelist_override snapDeepWl ["r"] (some 1)
    false false wlDeep [] 0 none false
    (["r", "a", "b", "c"], [("f", okInfo 1 1)])
    (by decide) (by decide) (by decide) (by decide) (by decide)
  exact h.trans (by decide)

/-- C6 (amended): in sequential mode a per-entry probe failure is
contained exactly as claimed: an enumerated file is stored exactly when
its directory is within scope and its stat probe succeeds, so a probe
failure leaves that path (and no other) out of the index, and no error
escapes `walk_directory` (the embedding is total). -/
theorem c6_amended_sequential_probe_failure (tree : Entry) (root : Path)
    (maxd : Option Nat) (follow oneFs : Bool) (wl : List Pat)
    (minSize : Nat) (allFiles : Bool) (it : SeqItem) (g : String) (i : Info)
    (hKeys : (seqKeys (walkRev follow root tree)).Nodup)
    (hPar : noLaterParentHits root (walkRev follow root tree) = true)
    (hmem : it ∈ walkRev follow root tree) (hf : (g, i) ∈ it.2) :
    getIdx (walk_directory tree root maxd follow oneFs wl minSize allFiles false)
        (it.1 ++ [g])
      = if skipB root maxd wl it.1 = true then none else fileSize follow i := by
  have hwd : walk_directory tree root maxd follow oneFs wl minSize allFiles false
      = walkSeq tree root maxd follow wl := by
    simp [walk_directory]
  rw [hwd]
  exact walkSeq_file_char tree root maxd follow wl it g i hKeys hPar hmem hf

/-- C6 witness: on the race snapshot the failing file `a` is omitted
while its healthy sibling `b` is recorded, in sequential mode. -/
theorem c6_amended_witness :
    getIdx (walk_directory snapRace ["r"] none false false [] 0 false false)
        ["r", "a"] = none
    ∧ getIdx (walk_directory snapRace ["r"] none false false [] 0 false false)
        ["r", "b"] = some 512 := by
  constructor
  · have h := c6_amended_sequential_probe_failure snapRace ["r"] none false false
      [] 0 false (["r"], [("a", raceInfo), ("b", okInfo 1 1)]) ("a") raceInfo
      (by decide) (by decide) (by decide) (by decide)
    exact h.trans (by decide)
  · have h := c6_amended_sequential_probe_failure snapRace ["r"] none false false
      [] 0 false (["r"], [("a", raceInfo), ("b", okInfo 1 1)]) ("b") (okInfo 1 1)
      (by decide) (by decide) (by decide) (by decide)
    exact h.trans (by decide)

/-- C2 (amended): with no whitelist patterns, every probe succeeding,
and a well-formed bottom-up enumeration, the sequential and the
parallel strategies agree at every enumerated file path: both store the
file's `st_blocks * 512` value when its directory is within depth, and
both leave the key absent when the directory is beyond depth.  (The
strategies still differ at directory keys, as the counterexample
records.) -/
theorem c2_amended_file_agreement (tree : Entry) (root : Path)
    (maxd : Option Nat) (follow oneFs : Bool) (minSize : Nat)
    (allFiles : Bool) (it : SeqItem) (g : String) (i : Info)
    (hKeys : (seqKeys (walkRev follow root tree)).Nodup)
    (hPar : noLaterParentHits root (walkRev follow root tree) = true)
    (hOk : ∀ jt ∈ walkRev follow root tree, ∀ f ∈ jt.2,
      f.2.ex = true ∧ (fileSize follow f.2).isSome = true)
    (hFD : ∀ jt ∈ walkRev follow root tree, ∀ f ∈ jt.2,
      (jt.1 ++ [f.1]) ∉ (walkRev follow root tree).map Prod.fst)
    (hPN : ((collectFiles (collectDirs tree root maxd follow [])).map
      Prod.fst).Nodup)
    (hmem : it ∈ walkRev follow root tree) (hf : (g, i) ∈ it.2) :
    getIdx (walk_directory tree root maxd follow oneFs [] minSize allFiles false)
        (it.1 ++ [g])
      = getIdx (walk_directory tree root maxd follow oneFs [] minSize allFiles
          true) (it.1 ++ [g]) := by
  obtain ⟨p, fs⟩ := it
  have hwseq : walk_directory tree root maxd follow oneFs [] minSize allFiles
      false = walkSeq tree root maxd follow [] := by
    simp [walk_directory]
  have hwpar : walk_directory tree root maxd follow oneFs [] minSize allFiles
      true = walkPar tree root maxd follow [] := by
    simp [walk_directory]
  rw [hwseq, hwpar]
  have hOkF : ∀ pi ∈ collectFiles (collectDirs tree root maxd follow []),
      pi.2.ex = true ∧ (fileSize follow pi.2).isSome = true := by
    intro pi hpi
    obtain ⟨q, j⟩ := pi
    obtain ⟨pd, cs', hdir, g', hg', hq⟩ := mem_collectFiles.mp hpi
    have hw := (collectDirs_corr_fwd tree root maxd follow pd cs' hdir).2
    exact hOk (pd, filesOf cs') hw (g', j) hg'
  have hND : (p ++ [g]) ∉ (collectDirs tree root maxd follow []).map
      Prod.fst := by
    intro hq
    obtain ⟨x, hx, hx1⟩ := List.mem_map.mp hq
    have hw := (collectDirs_corr_fwd tree root maxd follow x.1 x.2 hx).2
    have hmemw : (p ++ [g]) ∈ (walkRev follow root tree).map Prod.fst := by
      rw [← hx1]
      exact List.mem_map.mpr ⟨(x.1, filesOf x.2), hw, rfl⟩
    exact hFD (p, fs) hmem (g, i) hf hmemw
  have hlen : root.length ≤ p.length := walkRev_len follow root tree (p, fs) hmem
  have hqr : root ≠ p ++ [g] := by
    intro hh
    have := congrArg List.length hh
    simp only [List.length_append, List.length_cons, List.length_nil] at this
    omega
  by_cases hs : skipB root maxd [] p = true
  · rw [walkSeq_file_char tree root maxd follow [] (p, fs) g i hKeys hPar hmem hf,
      if_pos hs]
    have hqf : (p ++ [g]) ∉ (collectFiles (collectDirs tree root maxd follow
        [])).map Prod.fst := by
      intro hq
      obtain ⟨x, hx, hx1⟩ := List.mem_map.mp hq
      obtain ⟨q, j⟩ := x
      obtain ⟨pd, cs', hdir, g', hg', hqe⟩ := mem_collectFiles.mp hx
      have heq : pd ++ [g'] = p ++ [g] := by
        rw [← hqe]
        exact hx1
      obtain ⟨hpd, -⟩ := List.append_inj' heq rfl
      have hsk := (collectDirs_corr_fwd tree root maxd follow pd cs' hdir).1
      rw [hpd, hs] at hsk
      exact Bool.noConfusion hsk
    rw [walkPar_file_absent tree root maxd follow (p ++ [g]) hOkF hqf hND hqr]
  · have hs' : skipB root maxd [] p = false := Bool.eq_false_iff.mpr hs
    rw [walkSeq_file_char tree root maxd follow [] (p, fs) g i hKeys hPar hmem hf,
      if_neg hs]
    obtain ⟨cs', hfs, hc⟩ := collectDirs_corr_bwd tree root maxd follow p fs
      hmem hs'
    have hmemF : (p ++ [g], i) ∈ collectFiles (collectDirs tree root maxd
        follow []) :=
      mem_collectFiles.mpr ⟨p, cs', hc, g, hfs ▸ hf, rfl⟩
    rw [walkPar_file_ok tree root maxd follow (p ++ [g]) i hmemF hOkF hPN hND]

/-- C2 witness: on the nested snapshot the two strategies return the
same value at the file key `r/d/f`. -/
theorem c2_amended_witness :
    getIdx (walk_directory snapNested ["r"] none false false [] 0 false false)
        ["r", "d", "f"]
      = getIdx (walk_directory snapNested ["r"] none false false [] 0 false true)
        ["r", "d", "f"] :=
  c2_amended_file_agreement snapNested ["r"] none false false 0 false
    (["r", "d"], [(("f"), okInfo 1 1)]) ("f") (okInfo 1 1)
    (by decide) (by decide) (by decide) (by decide) (by decide)
    (by decide) (by decide)

/-- C9 (amended): over the range `n < 2^53` where the binary
floating-point quotients the source computes are exact (so the exact
integer model is faithful to CPython), the displayed two-decimal
mantissa of `format_size` always lies in [1.00, 1024.00) and the
displayed unit exists: the exponent is the integer base-1024
logarithm, and when the rounded mantissa reaches 1024.00 the unit is
bumped and the mantissa becomes 1.00; the concrete renderings
`format_size 1536 = "1.50 KB"` and `format_size 0 = "0 B"` hold as
claimed. -/
theorem c9_amended_mantissa_range (n : Nat) (h0 : 0 < n)
    (hfp : n < 9007199254740992) :
    (∃ i k, i < 6 ∧ 100 ≤ k ∧ k < 102400
      ∧ format_size n
        = some (renderHundredths k ++ " " ++ size_names.getD i ("")))
    ∧ format_size 1536 = some ("1.50 KB")
    ∧ format_size 0 = some ("0 B") := by
  refine ⟨?_, by decide, by decide⟩
  obtain ⟨hlb, hub⟩ := intLog1024_spec n h0
  have hn0 : ¬ n = 0 := by omega
  have hn6 : n < 1024 ^ 6 := by
    have h1 : (9007199254740992:ℕ) ≤ 1024 ^ 6 := by norm_num
    omega
  have hi6 : intLog1024 n < 6 := by
    by_contra hge
    push_neg at hge
    have := Nat.pow_le_pow_right (show 1 ≤ 1024 by omega) hge
    omega
  have hdpos : 0 < 1024 ^ intLog1024 n := pow_pos (by omega) _
  have hqlb : 100 ≤ 100 * n / 1024 ^ intLog1024 n :=
    (Nat.le_div_iff_mul_le hdpos).mpr (by omega)
  have hqub : 100 * n / 1024 ^ intLog1024 n < 102400 := by
    rw [Nat.div_lt_iff_lt_mul hdpos]
    have hps : (1024:ℕ) ^ (intLog1024 n + 1) = 1024 ^ intLog1024 n * 1024 :=
      pow_succ _ _
    omega
  have hk_lb : 100 ≤ mantissaHundredths n (intLog1024 n) := by
    rw [mantissaHundredths]
    exact le_trans hqlb (divRoundHalfEven_ge _ _)
  have hk_ub : mantissaHundredths n (intLog1024 n) ≤ 102400 := by
    rw [mantissaHundredths]
    exact le_trans (divRoundHalfEven_le _ _) (by omega)
  by_cases hb : mantissaHundredths n (intLog1024 n) = 102400
  · by_cases hi5 : intLog1024 n + 1 < 6
    · refine ⟨intLog1024 n + 1, 100, hi5, le_rfl, by omega, ?_⟩
      have hcond : (decide (102400 ≤ mantissaHundredths n (intLog1024 n))
          && decide (intLog1024 n + 1 < size_names.length)) = true := by
        rw [hb]
        have h6 : size_names.length = 6 := rfl
        rw [h6]
        simp [hi5]
      rw [format_size_split n hn0, if_pos hcond, hb]
      have h100 : divRoundHalfEven 102400 1024 = 100 := by decide
      rw [h100, size_names_lookup _ hi5]
      rfl
    · exfalso
      have hi5' : intLog1024 n = 5 := by omega
      rw [hi5', mantissaHundredths] at hb
      have hle := divRoundHalfEven_le (100 * n) (1024 ^ 5)
      rw [hb] at hle
      have hq := Nat.div_add_mod (100 * n) (1024 ^ 5)
      have hD : (1024:ℕ) ^ 5 = 1125899906842624 := by norm_num
      rw [hD] at hle hq
      omega
  · have hklt : mantissaHundredths n (intLog1024 n) < 102400 := by omega
    refine ⟨intLog1024 n, mantissaHundredths n (intLog1024 n), hi6, hk_lb,
      hklt, ?_⟩
    have hcond : (decide (102400 ≤ mantissaHundredths n (intLog1024 n))
        && decide (intLog1024 n + 1 < size_names.length)) = false := by
      have hlt : ¬ (102400 ≤ mantissaHundredths n (intLog1024 n)) := by omega
      simp [hlt]
    rw [format_size_split n hn0,
      if_neg (by rw [hcond]; exact Bool.false_ne_true),
      size_names_lookup _ hi6]
    rfl

/-- C9 witness: the amended range theorem applied at 1536 bytes, well
inside the float-exact range, yielding the "1.50 KB" display. -/
theorem c9_amended_witness :
    0 < 1536 ∧ 1536 < 9007199254740992
    ∧ ((∃ i k, i < 6 ∧ 100 ≤ k ∧ k < 102400
          ∧ format_size 1536
            = some (renderHundredths k ++ " " ++ size_names.getD i ("")))
        ∧ format_size 1536 = some ("1.50 KB")
        ∧ format_size 0 = some ("0 B")) :=
  ⟨by decide, by decide,
    c9_amended_mantissa_range 1536 (by decide) (by decide)⟩

/-- C10 witness: instantiation at a concrete two-entry index. -/
theorem c10_witness :
    (getIdx (filter_paths [(["r"], 7), (["r", "x"], 3)] ["r"] 5 none [] [] false)
        ["r"] = some 7 → getIdx [(["r"], 7), (["r", "x"], 3)] ["r"] = some 7)
    ∧ filter_paths [(["r"], 7), (["r", "x"], 3)] ["r"] 0 none [] [] false
        = [(["r"], 7), (["r", "x"], 3)] :=
  c10_filter_restriction_identity [(["r"], 7), (["r", "x"], 3)] ["r"] 5 none [] []
    false ["r"] 7 (by decide)

end DiskAnalyzer
